import Mathlib

/-!
Verification of the mozjemalloc allocator core
(memory/build/mozjemalloc.cpp), shallowly embedded over Nat.

The embedding fixes the default 64-bit Linux configuration of the source:
no XP_WIN, no XP_DARWIN, hence TINY_MIN_2POW = 3, MALLOC_STATIC_PAGESIZE
with pagesize_2pow = 12, CHUNK_2POW_DEFAULT = 20, QUANTUM_2POW_MIN = 4,
SMALL_MAX_2POW_DEFAULT = 9.  size_t values are modelled as Nat, with an
explicit reduction modulo 2^64 wherever the C computation can wrap.
-/

namespace Moz

/-- Width of size_t / uintptr_t in bits (64-bit platform). -/
def szBits : Nat := 64

/-- 2^64, the modulus of size_t arithmetic. -/
def szW : Nat := 2 ^ 64

/-- size_t addition (wraps modulo 2^64). -/
def szAdd (a b : Nat) : Nat := (a + b) % szW

/-- SIZEOF_PTR = 1 << SIZEOF_PTR_2POW with SIZEOF_PTR_2POW = 3. -/
def sizeofPtr : Nat := 8

/-- TINY_MIN_2POW on 64-bit non-Windows. -/
def tinyMin2Pow : Nat := 3

/-- QUANTUM_2POW_MIN. -/
def quantum2PowMin : Nat := 4

/-- quantum = 1 << QUANTUM_2POW_MIN. -/
def quantum : Nat := 2 ^ quantum2PowMin

/-- quantum_mask = quantum - 1. -/
def quantumMask : Nat := quantum - 1

/-- small_min = (QUANTUM_DEFAULT >> 1) + 1. -/
def smallMin : Nat := (quantum / 2) + 1

/-- small_max = SMALL_MAX_DEFAULT = 1 << 9. -/
def smallMax : Nat := 2 ^ 9

/-- ntbins = QUANTUM_2POW_MIN - TINY_MIN_2POW. -/
def ntbins : Nat := quantum2PowMin - tinyMin2Pow

/-- nqbins = SMALL_MAX_DEFAULT >> QUANTUM_2POW_MIN. -/
def nqbins : Nat := smallMax / quantum

/-- pagesize_2pow (static page size, default platforms). -/
def pagesize2Pow : Nat := 12

/-- pagesize = 1 << pagesize_2pow. -/
def pagesize : Nat := 2 ^ pagesize2Pow

/-- pagesize_mask = pagesize - 1. -/
def pagesizeMask : Nat := pagesize - 1

/-- bin_maxclass = pagesize >> 1. -/
def binMaxclass : Nat := pagesize / 2

/-- nsbins = pagesize_2pow - SMALL_MAX_2POW_DEFAULT - 1. -/
def nsbins : Nat := pagesize2Pow - 9 - 1

/-- chunksize = 1 << CHUNK_2POW_DEFAULT. -/
def chunksize : Nat := 2 ^ 20

/-- chunksize_mask = chunksize - 1. -/
def chunksizeMask : Nat := chunksize - 1

/-- chunk_npages = chunksize >> pagesize_2pow. -/
def chunkNpages : Nat := chunksize / pagesize

/-- arena_chunk_header_npages: ceil(header size / pagesize).  With the
64-bit layout (arena_chunk_t = 56 bytes, arena_chunk_map_t = 24 bytes,
chunk_npages = 256) the header occupies 56 + 24*255 = 6176 bytes = 2 pages. -/
def arenaChunkHeaderNpages : Nat := 2

/-- arena_maxclass = chunksize - (arena_chunk_header_npages << pagesize_2pow). -/
def arenaMaxclass : Nat := chunksize - arenaChunkHeaderNpages * pagesize

/-- CHUNK_RECYCLE_LIMIT. -/
def chunkRecycleLimit : Nat := 128

/-- recycle_limit = CHUNK_RECYCLE_LIMIT * CHUNKSIZE_DEFAULT. -/
def recycleLimit : Nat := chunkRecycleLimit * chunksize

/-- DIRTY_MAX_DEFAULT = 1 << 8. -/
def dirtyMaxDefault : Nat := 2 ^ 8

/-- PAGE_CEILING(s) = (s + pagesize_mask) & ~pagesize_mask.  As a 64-bit
word, ~pagesize_mask = 2^64 - pagesize. -/
def pageCeiling (s : Nat) : Nat := szAdd s pagesizeMask &&& (szW - pagesize)

/-- QUANTUM_CEILING(a) = (a + quantum_mask) & ~quantum_mask. -/
def quantumCeiling (a : Nat) : Nat := szAdd a quantumMask &&& (szW - quantum)

/-- CHUNK_CEILING(s) = (s + chunksize_mask) & ~chunksize_mask. -/
def chunkCeiling (s : Nat) : Nat := szAdd s chunksizeMask &&& (szW - chunksize)

/-- ALIGNMENT_CEILING(s, alignment) = (s + (alignment-1)) & ~(alignment-1);
for a power-of-two alignment, ~(alignment-1) as a 64-bit word is
2^64 - alignment. -/
def alignmentCeiling (s alignment : Nat) : Nat :=
  szAdd s (alignment - 1) &&& (szW - alignment)

/-- pow2_ceil: the bit-smearing loop of the source, on 64-bit size_t.
The initial x-- wraps modulo 2^64 (so pow2_ceil 0 = 0, as in C). -/
def pow2Ceil (x0 : Nat) : Nat :=
  let x := (x0 + (szW - 1)) % szW
  let x := x ||| (x >>> 1)
  let x := x ||| (x >>> 2)
  let x := x ||| (x >>> 4)
  let x := x ||| (x >>> 8)
  let x := x ||| (x >>> 16)
  let x := x ||| (x >>> 32)
  (x + 1) % szW

/-- ffs(int): one plus the index of the least significant set bit, 0 for 0.
The fuel is the 32-bit width of int; all the call sites pass small
non-negative values. -/
def ffsAux : Nat → Nat → Nat
  | 0, _ => 0
  | _ + 1, 0 => 0
  | fuel + 1, n => if n % 2 = 1 then 1 else ffsAux fuel (n / 2) + 1

/-- ffs on a (non-negative) int argument. -/
def ffs (n : Nat) : Nat := ffsAux 32 (n % 2 ^ 32)

/-- Bin index chosen by arena_t::MallocSmall for a small request. -/
def smallBinIndex (aSize : Nat) : Nat :=
  if aSize < smallMin then
    ffs (pow2Ceil aSize >>> (tinyMin2Pow + 1))
  else if aSize ≤ smallMax then
    ntbins + (quantumCeiling aSize >>> quantum2PowMin) - 1
  else
    ntbins + nqbins + (ffs (pow2Ceil aSize >>> 9) - 2)

/-- reg_size of bin i, as set up by arena_t::Init: tiny bins are
1 << (TINY_MIN_2POW + i), quantum bins are quantum * (i - ntbins + 1),
sub-page bins are small_max << (i - (ntbins + nqbins) + 1). -/
def binRegSize (i : Nat) : Nat :=
  if i < ntbins then 2 ^ (tinyMin2Pow + i)
  else if i < ntbins + nqbins then quantum * (i - ntbins + 1)
  else smallMax * 2 ^ (i - (ntbins + nqbins) + 1)

/-- Size class actually served by arena_t::MallocSmall: the reg_size of the
bin that MallocSmall selects (arena_salloc later reports run->bin->reg_size
as the usable size). -/
def mallocSmallSize (aSize : Nat) : Nat := binRegSize (smallBinIndex aSize)

/-- Usable size of a live allocation obtained through imalloc(aSize):
arena small runs report bin->reg_size, arena large runs report the
PAGE_CEILING'ed size stored in the chunk map by MallocLarge/SplitRun, and
huge allocations report node->size = PAGE_CEILING(aSize) recorded by
huge_palloc. -/
def imallocUsable (aSize : Nat) : Nat :=
  if aSize ≤ arenaMaxclass then
    if aSize ≤ binMaxclass then mallocSmallSize aSize
    else pageCeiling aSize
  else pageCeiling aSize

/-- Usable size of the pointer returned by BaseAllocator::malloc(n)
(which promotes a zero request to one byte before calling imalloc). -/
def mallocUsable (n : Nat) : Nat := imallocUsable (if n = 0 then 1 else n)

/-- MozJemalloc::malloc_good_size, translated clause by clause. -/
def mallocGoodSize (aSize0 : Nat) : Nat :=
  if aSize0 < smallMin then
    let aSize := pow2Ceil aSize0
    if aSize < 2 ^ tinyMin2Pow then 2 ^ tinyMin2Pow else aSize
  else if aSize0 ≤ smallMax then quantumCeiling aSize0
  else if aSize0 ≤ binMaxclass then pow2Ceil aSize0
  else if aSize0 ≤ arenaMaxclass then pageCeiling aSize0
  else pageCeiling aSize0

/-! Numeric values of the configuration constants, for omega-style
arithmetic. -/

theorem szW_val : szW = 18446744073709551616 := rfl

theorem quantum_val : quantum = 16 := rfl

theorem quantumMask_val : quantumMask = 15 := rfl

theorem smallMin_val : smallMin = 9 := rfl

theorem smallMax_val : smallMax = 512 := rfl

theorem pagesize_val : pagesize = 4096 := rfl

theorem pagesizeMask_val : pagesizeMask = 4095 := rfl

theorem binMaxclass_val : binMaxclass = 2048 := rfl

theorem chunksize_val : chunksize = 1048576 := rfl

theorem arenaMaxclass_val : arenaMaxclass = 1040384 := rfl

theorem recycleLimit_val : recycleLimit = 134217728 := rfl

/-! Arithmetic characterization of the masking macros. -/

theorem land_szW_sub_pow {x k : Nat} (hk : k ≤ 64) (hx : x < szW) :
    x &&& (szW - 2 ^ k) = x / 2 ^ k * 2 ^ k := by
  have hexp : 64 - k + k = 64 := by omega
  have hmask : szW - 2 ^ k = (2 ^ (64 - k) - 1) <<< k := by
    rw [Nat.shiftLeft_eq, Nat.sub_mul, one_mul, ← Nat.pow_add, hexp, szW]
  have hdiv : x / 2 ^ k * 2 ^ k = (x >>> k) <<< k := by
    rw [Nat.shiftLeft_eq, Nat.shiftRight_eq_div_pow]
  apply Nat.eq_of_testBit_eq
  intro i
  rw [Nat.testBit_land, hmask, Nat.testBit_shiftLeft, Nat.testBit_two_pow_sub_one,
    hdiv, Nat.testBit_shiftLeft, Nat.testBit_shiftRight]
  by_cases hik : k ≤ i
  · have hge : (decide (i ≥ k)) = true := by simpa using hik
    have hki : k + (i - k) = i := by omega
    rw [hki]
    by_cases hi64 : i < 64
    · have : (decide (i - k < 64 - k)) = true := by simp; omega
      simp [hge, this, Bool.and_comm]
    · have hxf : x.testBit i = false := by
        apply Nat.testBit_lt_two_pow
        calc x < 2 ^ 64 := hx
        _ ≤ 2 ^ i := Nat.pow_le_pow_right (by norm_num) (by omega)
      simp [hxf]
  · have : (decide (i ≥ k)) = false := by simpa using hik
    simp [this]

theorem szAdd_lt (a b : Nat) : szAdd a b < szW :=
  Nat.mod_lt _ (by norm_num [szW])

theorem szAdd_eq {a b : Nat} (h : a + b < szW) : szAdd a b = a + b :=
  Nat.mod_eq_of_lt h

theorem pageCeiling_eq {s : Nat} (h : s + pagesizeMask < szW) :
    pageCeiling s = (s + 4095) / 4096 * 4096 := by
  have hp : pagesize = 2 ^ 12 := rfl
  rw [pageCeiling, szAdd_eq h, hp, land_szW_sub_pow (by norm_num) h, pagesizeMask_val]
  norm_num

theorem le_pageCeiling {s : Nat} (h : s + pagesizeMask < szW) : s ≤ pageCeiling s := by
  rw [pageCeiling_eq h]
  have h1 := Nat.div_add_mod (s + 4095) 4096
  have h2 : (s + 4095) % 4096 < 4096 := Nat.mod_lt _ (by norm_num)
  omega

theorem pageCeiling_mod (s : Nat) : pageCeiling s % 4096 = 0 := by
  have hp : pagesize = 2 ^ 12 := rfl
  rw [pageCeiling, hp, land_szW_sub_pow (by norm_num) (szAdd_lt _ _)]
  norm_num [Nat.mul_mod_left]

/-! The small range (every request up to bin_maxclass) is settled by
exhaustive evaluation of the two size-class functions. -/

set_option maxRecDepth 100000 in
theorem smallRangeGoodSize : ((List.range 2049).all
    (fun m => decide (mallocUsable m = mallocGoodSize m ∧ m ≤ mallocUsable m ∧
      2 ^ tinyMin2Pow ≤ mallocUsable m))) = true := by
  decide

theorem usable_eq_good_below (m : Nat) (hm : m ≤ 2048) :
    mallocUsable m = mallocGoodSize m ∧ m ≤ mallocUsable m ∧
      2 ^ tinyMin2Pow ≤ mallocUsable m := by
  have h := smallRangeGoodSize
  rw [List.all_eq_true] at h
  have hmem : m ∈ List.range 2049 := by
    simpa [List.mem_range] using Nat.lt_succ_of_le hm
  exact of_decide_eq_true (h m hmem)

theorem mallocUsable_large {n : Nat} (h : 2048 < n) : mallocUsable n = pageCeiling n := by
  rw [mallocUsable, if_neg (by omega), imallocUsable]
  by_cases hL : n ≤ arenaMaxclass
  · rw [if_pos hL, if_neg (by rw [binMaxclass_val]; omega)]
  · rw [if_neg hL]

theorem mallocGoodSize_large {n : Nat} (h : 2048 < n) : mallocGoodSize n = pageCeiling n := by
  rw [mallocGoodSize]
  rw [if_neg (by rw [smallMin_val]; omega),
    if_neg (by rw [smallMax_val]; omega),
    if_neg (by rw [binMaxclass_val]; omega)]
  by_cases hL : n ≤ arenaMaxclass
  · rw [if_pos hL]
  · rw [if_neg hL]

/-- C1: for every request size n that a 64-bit malloc can possibly satisfy
(requests above 2^64 - chunksize fail the huge-path overflow check and
return null), the usable size of the returned pointer — bin reg_size for
small, the page-rounded run size for large, node->size for huge — is at
least n and equals malloc_good_size(n), in all five size categories
(tiny, quantum-spaced, sub-page, large, huge). -/
theorem C1_usable_size_eq_good_size (n : Nat) (hn : n ≤ szW - chunksize) :
    n ≤ mallocUsable n ∧ mallocUsable n = mallocGoodSize n := by
  by_cases hsmall : n ≤ 2048
  · have h := usable_eq_good_below n hsmall
    exact ⟨h.2.1, h.1⟩
  · push_neg at hsmall
    rw [szW_val, chunksize_val] at hn
    have hwrap : n + pagesizeMask < szW := by
      rw [pagesizeMask_val, szW_val]
      omega
    refine ⟨?_, by rw [mallocUsable_large hsmall, mallocGoodSize_large hsmall]⟩
    rw [mallocUsable_large hsmall]
    exact le_pageCeiling hwrap

/-- Witness for C1 at a huge request (3 chunks). -/
theorem C1_witness :
    3 * chunksize ≤ mallocUsable (3 * chunksize) ∧
      mallocUsable (3 * chunksize) = mallocGoodSize (3 * chunksize) :=
  C1_usable_size_eq_good_size (3 * chunksize) (by decide)

/-! Model of the aligned-allocation paths (ipalloc / Palloc / huge_palloc).
Addresses are Nat.  The placement the arena happens to pick (which chunk,
which page, which region, the bin geometry, what mmap returns, whether the
attempt runs out of memory) is not determined by the request alone, so it
enters as an explicit parameter; the address arithmetic applied to it is
the source's. -/

/-- Placement parameters the environment supplies to one allocation. -/
structure Place where
  chunkIdx : Nat
  pageIdx : Nat
  runSize : Nat
  nregs : Nat
  regIdx : Nat
  mmapBase : Nat
  fail : Bool

/-- Address of a small region: run address (chunk base + page offset) plus
bin->reg0_offset + bin->reg_size * regind, from arena_run_reg_alloc, with
reg0_offset = run_size - nregs * reg_size from arena_bin_run_size_calc. -/
def smallRegionAddr (pl : Place) (regSize : Nat) : Nat :=
  pl.chunkIdx * chunksize + pl.pageIdx * pagesize
    + (pl.runSize - pl.nregs * regSize) + pl.regIdx * regSize

/-- Address of a large run: page-aligned position inside a chunk. -/
def largeRunAddr (pl : Place) : Nat :=
  pl.chunkIdx * chunksize + pl.pageIdx * pagesize

/-- arena_t::Malloc: small if aSize <= bin_maxclass, else a large run. -/
def arenaMallocAddr (aSize : Nat) (pl : Place) : Nat :=
  if aSize ≤ binMaxclass then smallRegionAddr pl (mallocSmallSize aSize)
  else largeRunAddr pl

/-- arena_t::Palloc: take an oversized large run, then trim the head so the
result is aligned: offset = ret & (alignment-1); if nonzero, advance by
leadsize = alignment - offset. -/
def pallocAddr (aAlignment : Nat) (pl : Place) : Nat :=
  let ret := largeRunAddr pl
  let offset := ret &&& (aAlignment - 1)
  if offset = 0 then ret else ret + (aAlignment - offset)

/-- chunk_alloc / chunk_recycle / chunk_alloc_mmap_slow all yield
ALIGNMENT_CEILING(base, alignment) for some raw mapping base. -/
def chunkAllocAddr (alignment : Nat) (pl : Place) : Nat :=
  alignmentCeiling pl.mmapBase alignment

/-- size_t subtraction (wraps modulo 2^64). -/
def szSub (a b : Nat) : Nat := (a % szW + (szW - b % szW)) % szW

/-- ipalloc, translated: the returned address for each of its four paths
(in-arena Malloc, arena Palloc, huge_malloc, huge_palloc), or none when a
size_t overflow check fails or the attempt runs out of memory. -/
def ipallocAddr (aAlignment0 aSize : Nat) (pl : Place) : Option Nat :=
  if pl.fail then none else
  let ceilSize := alignmentCeiling aSize aAlignment0
  if ceilSize < aSize then none
  else if ceilSize ≤ pagesize ∨ (aAlignment0 ≤ pagesize ∧ ceilSize ≤ arenaMaxclass) then
    some (arenaMallocAddr ceilSize pl)
  else
    let aAlignment := pageCeiling aAlignment0
    let ceilSize2 := pageCeiling aSize
    if ceilSize2 < aSize ∨ szAdd ceilSize2 aAlignment < ceilSize2 then none
    else
      let runSize :=
        if aAlignment ≤ ceilSize2 then ceilSize2 + aAlignment - pagesize
        else szSub (aAlignment <<< 1) pagesize
      if runSize ≤ arenaMaxclass then some (pallocAddr aAlignment pl)
      else if aAlignment ≤ chunksize then some (chunkAllocAddr chunksize pl)
      else some (chunkAllocAddr aAlignment pl)

/-- BaseAllocator::malloc promotes a zero request to one byte. -/
def mallocEffSize (aSize : Nat) : Nat := if aSize = 0 then 1 else aSize

/-- BaseAllocator::realloc promotes a zero request to one byte. -/
def reallocEffSize (aSize : Nat) : Nat := if aSize = 0 then 1 else aSize

/-- BaseAllocator::memalign promotes a zero request to one byte. -/
def memalignEffSize (aSize : Nat) : Nat := if aSize = 0 then 1 else aSize

/-- BaseAllocator::memalign raises the alignment to sizeof(void*). -/
def memalignEffAlign (aAlignment : Nat) : Nat :=
  if aAlignment < sizeofPtr then sizeofPtr else aAlignment

/-- BaseAllocator::memalign: MOZ_ASSERT(((aAlignment - 1) & aAlignment) == 0)
then ipalloc.  An assertion failure is modelled as .error (). -/
def memalign (aAlignment aSize : Nat) (pl : Place) : Except Unit (Option Nat) :=
  if ((aAlignment - 1) &&& aAlignment) = 0 then
    .ok (ipallocAddr (memalignEffAlign aAlignment) (memalignEffSize aSize) pl)
  else .error ()

/-- errno value EINVAL. -/
def EINVAL : Nat := 22

/-- errno value ENOMEM. -/
def ENOMEM : Nat := 12

/-- Outcome of AlignedAllocator::posix_memalign: the returned errno, the
value stored through aMemPtr (none = left unchanged), whether the
allocation path was entered at all, and whether the process aborted. -/
structure PMResult where
  ret : Nat
  out : Option Nat
  attempted : Bool
  crashed : Bool
  deriving DecidableEq, Repr

/-- AlignedAllocator::posix_memalign, translated. -/
def posixMemalign (aAlignment aSize : Nat) (pl : Place) : PMResult :=
  if ((aAlignment - 1) &&& aAlignment) ≠ 0 ∨ aAlignment < sizeofPtr then
    ⟨EINVAL, none, false, false⟩
  else
    match memalign aAlignment aSize pl with
    | .error () => ⟨0, none, true, true⟩
    | .ok none => ⟨ENOMEM, none, true, false⟩
    | .ok (some addr) => ⟨0, some addr, true, false⟩

/-- Outcome of AlignedAllocator::aligned_alloc. -/
structure AAResult where
  res : Except Unit (Option Nat)
  attempted : Bool

/-- AlignedAllocator::aligned_alloc: fail early (without allocating) if the
size is not a multiple of the alignment, else defer to memalign. -/
def alignedAlloc (aAlignment aSize : Nat) (pl : Place) : AAResult :=
  if aSize % aAlignment ≠ 0 then ⟨.ok none, false⟩
  else ⟨memalign aAlignment aSize pl, true⟩

/-- BaseAllocator::calloc computes num_size = aNum * aSize in size_t
arithmetic, promotes a zero product to 1, and rejects the request (returns
null) when the cheap half-word test fires and the division check detects an
actual overflow. -/
def callocNumSize (aNum aSize : Nat) : Option Nat :=
  let numSize := aNum * aSize % szW
  if numSize = 0 then some 1
  else if ((aNum ||| aSize) &&& (szW - 2 ^ 32)) ≠ 0 ∧ numSize / aSize ≠ aNum then none
  else some numSize

/-! Characterization of the source's power-of-two test ((a - 1) & a) == 0. -/

/-- A power of two. -/
def IsPow2 (a : Nat) : Prop := ∃ k, a = 2 ^ k

theorem land_pred_two_pow (k : Nat) : (2 ^ k - 1) &&& 2 ^ k = 0 := by
  apply Nat.eq_of_testBit_eq
  intro i
  rw [Nat.testBit_land, Nat.testBit_two_pow_sub_one, Nat.testBit_two_pow,
    Nat.zero_testBit]
  by_cases h : i < k
  · have hne : k ≠ i := by omega
    simp [hne]
  · simp [h]

theorem pow2_of_land_pred {a : Nat} (hpos : 0 < a) (h : (a - 1) &&& a = 0) :
    IsPow2 a := by
  induction a using Nat.strong_induction_on with
  | _ a ih =>
    rcases Nat.even_or_odd a with ⟨b, hb⟩ | ⟨b, hb⟩
    · have hb0 : 0 < b := by omega
      have e1 : a - 1 = Nat.bit true (b - 1) := by
        simp only [Nat.bit, cond_true]
        omega
      have e2 : a = Nat.bit false b := by
        simp only [Nat.bit, cond_false]
        omega
      have h2 : (b - 1) &&& b = 0 := by
        have := h
        rw [e1] at this
        conv at this => lhs; rw [e2]
        rw [Nat.land_bit] at this
        simp only [Bool.true_and, Nat.bit, cond_false] at this
        omega
      obtain ⟨k, hk⟩ := ih b (by omega) hb0 h2
      exact ⟨k + 1, by rw [pow_succ]; omega⟩
    · rcases Nat.eq_zero_or_pos b with hb0 | hb0
      · exact ⟨0, by omega⟩
      · exfalso
        have e1 : a - 1 = Nat.bit false b := by
          simp only [Nat.bit, cond_false]
          omega
        have e2 : a = Nat.bit true b := by
          simp only [Nat.bit, cond_true]
          omega
        have := h
        rw [e1] at this
        conv at this => lhs; rw [e2]
        rw [Nat.land_bit] at this
        have hbb : b &&& b = b :=
          Nat.eq_of_testBit_eq fun i => by rw [Nat.testBit_land, Bool.and_self]
        simp only [Bool.false_and, Nat.bit, cond_false, hbb] at this
        omega

theorem land_pred_eq_zero_iff (a : Nat) :
    (a - 1) &&& a = 0 ↔ a = 0 ∨ IsPow2 a := by
  constructor
  · intro h
    rcases Nat.eq_zero_or_pos a with h0 | hpos
    · exact Or.inl h0
    · exact Or.inr (pow2_of_land_pred hpos h)
  · rintro (rfl | ⟨k, rfl⟩)
    · rfl
    · exact land_pred_two_pow k

/-- C7: posix_memalign returns EINVAL exactly when the alignment is not a
power of two or is smaller than sizeof(void*); in that case no allocation
is attempted and *aMemPtr is untouched; the alignment check never aborts
the process (the memalign assertion cannot fire after it), and an
allocation failure on a valid alignment is reported as ENOMEM. -/
theorem C7_posix_memalign_einval_iff (aAlignment aSize : Nat) (pl : Place) :
    ((posixMemalign aAlignment aSize pl).ret = EINVAL ↔
      (¬ IsPow2 aAlignment ∨ aAlignment < sizeofPtr)) ∧
    ((posixMemalign aAlignment aSize pl).ret = EINVAL →
      (posixMemalign aAlignment aSize pl).attempted = false ∧
        (posixMemalign aAlignment aSize pl).out = none) ∧
    (posixMemalign aAlignment aSize pl).crashed = false ∧
    ((posixMemalign aAlignment aSize pl).attempted = true →
      ipallocAddr (memalignEffAlign aAlignment) (memalignEffSize aSize) pl = none →
      (posixMemalign aAlignment aSize pl).ret = ENOMEM) := by
  by_cases hc : ((aAlignment - 1) &&& aAlignment ≠ 0 ∨ aAlignment < sizeofPtr)
  · have hres : posixMemalign aAlignment aSize pl = ⟨EINVAL, none, false, false⟩ := by
      rw [posixMemalign, if_pos hc]
    rw [hres]
    refine ⟨⟨fun _ => ?_, fun _ => rfl⟩, fun _ => ⟨rfl, rfl⟩, rfl, fun hat => by simp at hat⟩
    rcases hc with hnp | hlt
    · rcases Nat.eq_zero_or_pos aAlignment with h0 | hpos
      · right
        rw [h0, sizeofPtr]
        omega
      · left
        intro hp2
        exact hnp ((land_pred_eq_zero_iff aAlignment).mpr (Or.inr hp2))
    · exact Or.inr hlt
  · push_neg at hc
    obtain ⟨hz, hge⟩ := hc
    have hpow : IsPow2 aAlignment := by
      rcases (land_pred_eq_zero_iff aAlignment).mp hz with h0 | hp
      · exfalso
        rw [sizeofPtr] at hge
        omega
      · exact hp
    have hmem : memalign aAlignment aSize pl =
        .ok (ipallocAddr (memalignEffAlign aAlignment) (memalignEffSize aSize) pl) := by
      rw [memalign, if_pos hz]
    have hnot : ¬ ((aAlignment - 1) &&& aAlignment ≠ 0 ∨ aAlignment < sizeofPtr) := by
      push_neg
      exact ⟨hz, hge⟩
    cases hip : ipallocAddr (memalignEffAlign aAlignment) (memalignEffSize aSize) pl with
    | none =>
      have hres : posixMemalign aAlignment aSize pl = ⟨ENOMEM, none, true, false⟩ := by
        rw [posixMemalign, if_neg hnot, hmem, hip]
      rw [hres]
      refine ⟨⟨fun h => absurd h (by rw [ENOMEM, EINVAL]; simp), fun h => ?_⟩,
        fun h => absurd h (by rw [ENOMEM, EINVAL]; simp), rfl, fun _ _ => rfl⟩
      rcases h with hnp | hlt
      · exact absurd hpow hnp
      · omega
    | some addr =>
      have hres : posixMemalign aAlignment aSize pl = ⟨0, some addr, true, false⟩ := by
        rw [posixMemalign, if_neg hnot, hmem, hip]
      rw [hres]
      refine ⟨⟨fun h => absurd h (by rw [EINVAL]; simp), fun h => ?_⟩,
        fun h => absurd h (by rw [EINVAL]; simp), rfl, fun _ hn => absurd hn (by simp)⟩
      rcases h with hnp | hlt
      · exact absurd hpow hnp
      · omega

/-- Default placement for witnesses. -/
def defaultPlace : Place := ⟨0, 0, pagesize, 1, 0, 0, false⟩

/-- Witness for C7: a power-of-two alignment smaller than sizeof(void*) is
rejected with EINVAL. -/
theorem C7_witness : (posixMemalign 4 100 defaultPlace).ret = EINVAL :=
  (C7_posix_memalign_einval_iff 4 100 defaultPlace).1.mpr (Or.inr (by decide))

/-- C10: aligned_alloc returns null without attempting an allocation when
the size is not a multiple of the alignment, and otherwise behaves exactly
as memalign on the same arguments. -/
theorem C10_aligned_alloc_guard (aAlignment aSize : Nat) (pl : Place) :
    (¬ aAlignment ∣ aSize →
      alignedAlloc aAlignment aSize pl = ⟨.ok none, false⟩) ∧
    (aAlignment ∣ aSize →
      alignedAlloc aAlignment aSize pl = ⟨memalign aAlignment aSize pl, true⟩) := by
  constructor
  · intro hnd
    rw [alignedAlloc, if_pos]
    intro hmod
    exact hnd (Nat.dvd_iff_mod_eq_zero.mpr hmod)
  · intro hd
    rw [alignedAlloc, if_neg]
    simp only [ne_eq, not_not]
    exact Nat.dvd_iff_mod_eq_zero.mp hd

/-- Witness for C10: size 24 is not a multiple of alignment 16, so the
call fails up front; size 32 is, so the call is exactly memalign. -/
theorem C10_witness :
    alignedAlloc 16 24 defaultPlace = ⟨.ok none, false⟩ ∧
      alignedAlloc 16 32 defaultPlace = ⟨memalign 16 32 defaultPlace, true⟩ :=
  ⟨(C10_aligned_alloc_guard 16 24 defaultPlace).1 (by decide),
    (C10_aligned_alloc_guard 16 32 defaultPlace).2 (by decide)⟩

/-- C9: every user entry point treats a zero-byte request as a one-byte
request — malloc, realloc and memalign promote aSize 0 to 1, calloc
promotes a zero product to 1 — and a one-byte request is served from the
smallest tiny class (8 bytes on 64-bit), which is the minimum usable size
any request is given. -/
theorem C9_zero_size_request (n : Nat) (hn : n ≤ szW - chunksize) :
    mallocEffSize 0 = 1 ∧ reallocEffSize 0 = 1 ∧ memalignEffSize 0 = 1 ∧
    (∀ k m : Nat, k * m = 0 → callocNumSize k m = some 1) ∧
    mallocUsable 0 = 2 ^ tinyMin2Pow ∧
    2 ^ tinyMin2Pow ≤ mallocUsable n := by
  refine ⟨rfl, rfl, rfl, fun k m hkm => ?_, by decide, ?_⟩
  · rw [callocNumSize]
    simp [hkm, szW]
  · by_cases hsmall : n ≤ 2048
    · exact (usable_eq_good_below n hsmall).2.2
    · push_neg at hsmall
      rw [szW_val, chunksize_val] at hn
      have hwrap : n + pagesizeMask < szW := by
        rw [pagesizeMask_val, szW_val]
        omega
      have := le_pageCeiling hwrap
      rw [mallocUsable_large hsmall, tinyMin2Pow]
      omega

/-- Witness for C9 at request size 5000. -/
theorem C9_witness :
    mallocEffSize 0 = 1 ∧ reallocEffSize 0 = 1 ∧ memalignEffSize 0 = 1 ∧
    (∀ k m : Nat, k * m = 0 → callocNumSize k m = some 1) ∧
    mallocUsable 0 = 2 ^ tinyMin2Pow ∧
    2 ^ tinyMin2Pow ≤ mallocUsable 5000 :=
  C9_zero_size_request 5000 (by decide)

/-! Model of the dirty-page accounting (arena_t::DallocRun dirty marking and
arena_t::Purge).  A chunk in the arena's dirty tree is abstracted to the
list of its maximal dirty page runs (the groups arena_t::Purge discovers on
its high-to-low page walk), each entry the run's page count; mNumDirty is
maintained as in the source and equals the total by the source's own
MOZ_ASSERT at the top of Purge.  The list is ordered with the most recently
dirtied chunk (the tree tail that Purge picks) first. -/

/-- Total dirty pages of an arena state. -/
def arenaNumDirty (cs : List (List Nat)) : Nat := (cs.map List.sum).sum

/-- Inner loop of arena_t::Purge for one chunk: release maximal dirty runs
(decommit or madvise), decrementing mNumDirty by npages each time, until
the chunk has no dirty pages left or mNumDirty has dropped to the target;
returns the new mNumDirty and the chunk's remaining dirty runs. -/
def purgeChunk : List Nat → Nat → Nat → Nat × List Nat
  | [], nd, _ => (nd, [])
  | r :: rest, nd, target =>
    let nd' := nd - r
    if nd' ≤ target then (nd', rest)
    else purgeChunk rest nd' target

/-- Outer loop of arena_t::Purge: while mNumDirty > target, take the most
recently dirtied chunk, run the inner loop on it, and drop it from the
dirty tree when its dirty count reaches zero. -/
def purgeLoop : List (List Nat) → Nat → Nat → Nat × List (List Nat)
  | cs, nd, target =>
    if nd ≤ target then (nd, cs)
    else
      match cs with
      | [] => (nd, [])
      | c :: front =>
        if (purgeChunk c nd target).2.isEmpty then
          purgeLoop front (purgeChunk c nd target).1 target
        else ((purgeChunk c nd target).1, (purgeChunk c nd target).2 :: front)

/-- arena_t::Purge(aAll): target is 1 when aAll else mMaxDirty, and the
loop runs while mNumDirty > (dirty_max >> 1). -/
def purge (cs : List (List Nat)) (nd : Nat) (aAll : Bool) (maxDirty : Nat) :
    Nat × List (List Nat) :=
  let dirtyMax := if aAll then 1 else maxDirty
  purgeLoop cs nd (dirtyMax / 2)

/-- DallocRun marking the freed run's pages dirty: the chunk either was
already in the dirty tree (at position i) and gains one more dirty run, or
had no dirty pages and is inserted. -/
def dallocRunMarkDirty (cs : List (List Nat)) (pos : Option Nat)
    (runPages : Nat) : List (List Nat) :=
  match pos with
  | none => [runPages] :: cs
  | some i => cs.set i (runPages :: cs.getD i [])

/-- Tail of arena_t::DallocRun with aDirty = true: mark the pages dirty,
then enforce mMaxDirty — if mNumDirty > mMaxDirty, call Purge(false). -/
def dallocRunDirty (cs : List (List Nat)) (pos : Option Nat)
    (runPages maxDirty : Nat) : Nat × List (List Nat) :=
  let cs' := dallocRunMarkDirty cs pos runPages
  let nd := arenaNumDirty cs'
  if maxDirty < nd then purge cs' nd false maxDirty else (nd, cs')

theorem purgeChunk_spec (runs : List Nat) (nd t : Nat) (h : runs.sum ≤ nd) :
    (purgeChunk runs nd t).1 = nd - runs.sum + (purgeChunk runs nd t).2.sum ∧
    (purgeChunk runs nd t).2.sum ≤ runs.sum ∧
    ((purgeChunk runs nd t).2 ≠ [] → (purgeChunk runs nd t).1 ≤ t) := by
  induction runs generalizing nd with
  | nil => simp [purgeChunk]
  | cons r rest ih =>
    rw [List.sum_cons] at h
    by_cases hb : nd - r ≤ t
    · have hres : purgeChunk (r :: rest) nd t = (nd - r, rest) := by
        rw [purgeChunk, if_pos hb]
      rw [hres]
      refine ⟨by simp only [List.sum_cons]; omega,
        by simp only [List.sum_cons]; omega, fun _ => hb⟩
    · have hres : purgeChunk (r :: rest) nd t = purgeChunk rest (nd - r) t := by
        rw [purgeChunk, if_neg hb]
      have hrest : rest.sum ≤ nd - r := by omega
      obtain ⟨ih1, ih2, ih3⟩ := ih (nd - r) hrest
      rw [hres]
      refine ⟨by rw [ih1, List.sum_cons]; omega, by rw [List.sum_cons]; omega, ih3⟩

theorem purgeLoop_le (cs : List (List Nat)) (nd t : Nat)
    (hinv : nd = arenaNumDirty cs) : (purgeLoop cs nd t).1 ≤ t := by
  induction cs generalizing nd with
  | nil =>
    rw [purgeLoop]
    have : nd = 0 := by simpa [arenaNumDirty] using hinv
    simp [this]
  | cons c front ih =>
    rw [purgeLoop]
    by_cases hle : nd ≤ t
    · rw [if_pos hle]
      exact hle
    · rw [if_neg hle]
      have hdecomp : nd = c.sum + arenaNumDirty front := by
        rw [hinv, arenaNumDirty, List.map_cons, List.sum_cons, arenaNumDirty]
      have hsum : c.sum ≤ nd := by omega
      obtain ⟨h1, h2, h3⟩ := purgeChunk_spec c nd t hsum
      cases hemp : (purgeChunk c nd t).2 with
      | nil =>
        rw [if_pos List.isEmpty_nil]
        apply ih
        rw [h1, hemp, List.sum_nil]
        omega
      | cons x xs =>
        rw [if_neg (by simp)]
        exact h3 (by rw [hemp]; simp)

/-- C3: at the moment DallocRun returns from a dirty free, the arena's
num_dirty is at most max_dirty: if marking the freed pages dirty pushed
num_dirty above max_dirty, the Purge(false) call at the end of DallocRun
purges while num_dirty exceeds max_dirty/2, so it returns with num_dirty
at most max_dirty/2. -/
theorem C3_dirty_cap_after_dalloc_run (cs : List (List Nat)) (pos : Option Nat)
    (runPages maxDirty : Nat) :
    (dallocRunDirty cs pos runPages maxDirty).1 ≤ maxDirty ∧
    (maxDirty < arenaNumDirty (dallocRunMarkDirty cs pos runPages) →
      (dallocRunDirty cs pos runPages maxDirty).1 ≤ maxDirty / 2) := by
  rw [dallocRunDirty]
  by_cases hc : maxDirty < arenaNumDirty (dallocRunMarkDirty cs pos runPages)
  · rw [if_pos hc]
    have h := purgeLoop_le (dallocRunMarkDirty cs pos runPages)
      (arenaNumDirty (dallocRunMarkDirty cs pos runPages)) (maxDirty / 2) rfl
    rw [purge]
    exact ⟨le_trans h (by omega), fun _ => h⟩
  · rw [if_neg hc]
    exact ⟨by omega, fun hlt => absurd hlt hc⟩

/-! Model of the chunk recycling budget (chunk_dealloc / chunk_record /
chunk_recycle).  CAN_RECYCLE(size) is true on non-Windows platforms. -/

/-- CAN_RECYCLE on non-Windows. -/
def canRecycle (_size : Nat) : Bool := true

/-- The recycled_size update of chunk_record: the counter grows by the
recorded size unless forward coalescing failed and base_node_alloc returned
null (then the chunk leaks and the counter is untouched). -/
def chunkRecord (recycled size : Nat) (coalesceForward xnodeOk : Bool) : Nat :=
  if ¬ coalesceForward ∧ ¬ xnodeOk then recycled
  else szAdd recycled size

/-- Outcome of chunk_dealloc: the new recycled_size counter, the bytes
handed to chunk_record, and the bytes unmapped. -/
structure DeallocOutcome where
  recycled : Nat
  recorded : Nat
  unmapped : Nat
  deriving DecidableEq, Repr

/-- chunk_dealloc, translated: load recycled_size; if below the limit,
record min(size, recycle_limit - recycled_size) (pages_trim unmaps the
portion that would overflow the limit); else unmap everything. -/
def chunkDealloc (recycled size : Nat) (coalesceForward xnodeOk : Bool) :
    DeallocOutcome :=
  if canRecycle size then
    if recycled < recycleLimit then
      if size > recycleLimit - recycled then
        ⟨chunkRecord recycled (recycleLimit - recycled) coalesceForward xnodeOk,
          recycleLimit - recycled, size - (recycleLimit - recycled)⟩
      else ⟨chunkRecord recycled size coalesceForward xnodeOk, size, 0⟩
    else ⟨recycled, 0, size⟩
  else ⟨recycled, 0, size⟩

/-- The recycled_size update of chunk_recycle: recycled_size -= size for
the recycled span (size_t subtraction; the span was accounted in
recycled_size, so size ≤ recycled_size holds on entry). -/
def chunkRecycleSub (recycled size : Nat) : Nat := szSub recycled size

/-- C4: the process-wide recycled_size counter never exceeds recycle_limit:
chunk_dealloc gates what chunk_record may add to the remaining headroom and
unmaps the excess, chunk_record adds at most that, and chunk_recycle only
decreases the counter. -/
theorem C4_recycled_size_bounded (r s r2 s2 : Nat) (cf ok : Bool)
    (hr : r ≤ recycleLimit) (hr2 : r2 ≤ recycleLimit) (hs2 : s2 ≤ r2) :
    (chunkDealloc r s cf ok).recycled ≤ recycleLimit ∧
    (chunkDealloc r s cf ok).recorded ≤ recycleLimit - r ∧
    (r < recycleLimit → recycleLimit - r < s →
      (chunkDealloc r s cf ok).recorded = recycleLimit - r ∧
      (chunkDealloc r s cf ok).unmapped = s - (recycleLimit - r)) ∧
    chunkRecycleSub r2 s2 ≤ recycleLimit := by
  have hlim : recycleLimit = 134217728 := recycleLimit_val
  have hsub : chunkRecycleSub r2 s2 = r2 - s2 := by
    rw [chunkRecycleSub, szSub, szW_val]
    rw [hlim] at hr2
    have h1 : r2 % 18446744073709551616 = r2 := Nat.mod_eq_of_lt (by omega)
    have h2 : s2 % 18446744073709551616 = s2 := Nat.mod_eq_of_lt (by omega)
    rw [h1, h2]
    have h3 : r2 + (18446744073709551616 - s2)
        = 18446744073709551616 + (r2 - s2) := by omega
    rw [h3, Nat.add_mod_left]
    exact Nat.mod_eq_of_lt (by omega)
  rw [chunkDealloc, canRecycle, if_pos rfl]
  by_cases hlt : r < recycleLimit
  · rw [if_pos hlt]
    by_cases hbig : s > recycleLimit - r
    · rw [if_pos hbig]
      have hrec : chunkRecord r (recycleLimit - r) cf ok ≤ recycleLimit := by
        rw [chunkRecord]
        by_cases hskip : ¬ cf = true ∧ ¬ ok = true
        · rw [if_pos hskip]
          omega
        · rw [if_neg hskip, szAdd, szW_val]
          rw [hlim] at *
          omega
      exact ⟨hrec, by dsimp only; omega, fun _ _ => ⟨rfl, rfl⟩, by rw [hsub]; omega⟩
    · rw [if_neg hbig]
      push_neg at hbig
      have hrec : chunkRecord r s cf ok ≤ recycleLimit := by
        rw [chunkRecord]
        by_cases hskip : ¬ cf = true ∧ ¬ ok = true
        · rw [if_pos hskip]
          omega
        · rw [if_neg hskip, szAdd, szW_val]
          rw [hlim] at *
          omega
      exact ⟨hrec, by dsimp only; omega, fun _ hc => absurd hbig (by omega),
        by rw [hsub]; omega⟩
  · rw [if_neg hlt]
    exact ⟨hr, by dsimp only; omega, fun hc => absurd hc hlt, by rw [hsub]; omega⟩

/-- Witness for C4: recording 3 chunks with one chunk of headroom recycles
one chunk's worth and unmaps the other two. -/
theorem C4_witness :
    (chunkDealloc (recycleLimit - chunksize) (3 * chunksize) false true).recycled
        ≤ recycleLimit ∧
      (chunkDealloc (recycleLimit - chunksize) (3 * chunksize) false true).recorded
        ≤ recycleLimit - (recycleLimit - chunksize) ∧
      (recycleLimit - chunksize < recycleLimit →
        recycleLimit - (recycleLimit - chunksize) < 3 * chunksize →
        (chunkDealloc (recycleLimit - chunksize) (3 * chunksize) false true).recorded
          = recycleLimit - (recycleLimit - chunksize) ∧
        (chunkDealloc (recycleLimit - chunksize) (3 * chunksize) false true).unmapped
          = 3 * chunksize - (recycleLimit - (recycleLimit - chunksize))) ∧
      chunkRecycleSub chunksize chunksize ≤ recycleLimit :=
  C4_recycled_size_bounded (recycleLimit - chunksize) (3 * chunksize) chunksize
    chunksize false true (by decide) (by decide) (by decide)

/-! Model of the huge allocation registry counters (huge_palloc,
huge_ralloc, huge_dalloc). -/

/-- node->size recorded by huge_palloc: psize = PAGE_CEILING(size). -/
def hugeNodeSize (size : Nat) : Nat := pageCeiling size

/-- huge_mapped after huge_palloc(size): huge_mapped += csize. -/
def hugePallocMapped (mapped size : Nat) : Nat := szAdd mapped (chunkCeiling size)

/-- Result of huge_ralloc: whether the allocation moved, the huge_mapped
counter afterwards, and the number of bytes copied on the move path. -/
structure RallocResult where
  moved : Bool
  mapped : Nat
  copied : Nat
  deriving DecidableEq, Repr

/-- huge_ralloc(ptr, size, oldsize) with huge_mapped = mapped on entry:
if oldsize is huge and CHUNK_CEILING(size) == CHUNK_CEILING(oldsize), the
allocation is adjusted in place (ptr is returned, huge_mapped untouched);
otherwise huge_malloc(size) (huge_mapped += CHUNK_CEILING(size)), copy
min(size, oldsize) bytes, then idalloc -> huge_dalloc(ptr)
(huge_mapped -= CHUNK_CEILING(node->size)). -/
def hugeRalloc (mapped size oldsize : Nat) : RallocResult :=
  if arenaMaxclass < oldsize ∧ chunkCeiling size = chunkCeiling oldsize then
    ⟨false, mapped, 0⟩
  else
    ⟨true, szSub (szAdd mapped (chunkCeiling size)) (chunkCeiling oldsize),
      min size oldsize⟩

/-- iralloc sends a request to huge_ralloc iff it exceeds arena_maxclass. -/
def irallocGoesHuge (aSize : Nat) : Bool := decide (arenaMaxclass < aSize)

/-- Counterexample for C5: for p = malloc(3*chunksize) (recorded size
PAGE_CEILING(3*chunksize) = 3*chunksize, huge_mapped grown by 3*chunksize),
realloc(p, chunksize) dispatches to huge_ralloc, whose in-place condition
CHUNK_CEILING(chunksize) == CHUNK_CEILING(3*chunksize) is false, so the
allocation MOVES (q != p), contradicting the claimed in-place shrink. -/
theorem C5_counterexample :
    irallocGoesHuge chunksize = true ∧
    (hugeRalloc (hugePallocMapped 0 (3 * chunksize)) chunksize
      (hugeNodeSize (3 * chunksize))).moved = true := by
  constructor
  · decide
  · rw [hugeRalloc, if_neg]
    rintro ⟨-, h⟩
    revert h
    decide

/-- C5 as amended: realloc(p, chunksize) on a live huge p = malloc(3*chunksize)
does not shrink in place — it allocates a fresh chunk-sized huge region,
copies chunksize bytes and frees the old region — and the huge mapped
counter nevertheless decreases by exactly 2*chunksize (the freed
3*chunksize minus the new chunksize), under any purge strategy. -/
theorem C5_huge_realloc_moves (m : Nat) (hm : 3 * chunksize ≤ m)
    (hw : m + chunksize < szW) :
    irallocGoesHuge chunksize = true ∧
    (hugeRalloc m chunksize (hugeNodeSize (3 * chunksize))).moved = true ∧
    (hugeRalloc m chunksize (hugeNodeSize (3 * chunksize))).mapped
      = m - 2 * chunksize ∧
    (hugeRalloc m chunksize (hugeNodeSize (3 * chunksize))).copied = chunksize := by
  have hnode : hugeNodeSize (3 * chunksize) = 3 * chunksize := by decide
  rw [hnode]
  have hcond : ¬ (arenaMaxclass < 3 * chunksize ∧
      chunkCeiling chunksize = chunkCeiling (3 * chunksize)) := by
    rintro ⟨-, h⟩
    revert h
    decide
  rw [chunksize_val, szW_val] at *
  have hcc1 : chunkCeiling 1048576 = 1048576 := by decide
  have hcc3 : chunkCeiling (3 * 1048576) = 3 * 1048576 := by decide
  refine ⟨by decide, ?_, ?_, ?_⟩
  · rw [hugeRalloc, if_neg hcond]
  · rw [hugeRalloc, if_neg hcond]
    dsimp only
    rw [hcc1, hcc3, szAdd, szSub, szW_val]
    have h1 : (m + 1048576) % 18446744073709551616 = m + 1048576 :=
      Nat.mod_eq_of_lt (by omega)
    rw [h1]
    have h2 : (m + 1048576) % 18446744073709551616 = m + 1048576 :=
      Nat.mod_eq_of_lt (by omega)
    have h3 : (3 * 1048576) % 18446744073709551616 = 3 * 1048576 :=
      Nat.mod_eq_of_lt (by omega)
    rw [h2, h3]
    have h4 : m + 1048576 + (18446744073709551616 - 3 * 1048576)
        = 18446744073709551616 + (m - 2 * 1048576) := by omega
    rw [h4, Nat.add_mod_left]
    exact Nat.mod_eq_of_lt (by omega)
  · rw [hugeRalloc, if_neg hcond]
    dsimp only
    omega

/-- Witness for the amended C5 at the scenario's own counter value. -/
theorem C5_witness :
    irallocGoesHuge chunksize = true ∧
    (hugeRalloc (3 * chunksize) chunksize (hugeNodeSize (3 * chunksize))).moved
      = true ∧
    (hugeRalloc (3 * chunksize) chunksize (hugeNodeSize (3 * chunksize))).mapped
      = 3 * chunksize - 2 * chunksize ∧
    (hugeRalloc (3 * chunksize) chunksize (hugeNodeSize (3 * chunksize))).copied
      = chunksize :=
  C5_huge_realloc_moves (3 * chunksize) (by decide) (by decide)

/-! Model of calloc's zeroing (BaseAllocator::calloc -> imalloc(zero=true)).
Buffer contents are byte functions Nat -> Nat.  The three service paths:
small (MallocSmall memsets the whole region when aZero), large (SplitRun
zeroes every page whose map entry lacks CHUNK_MAP_ZEROED; this is the
non-decommit build, where the zero check runs for every page), huge
(huge_palloc calls chunk_ensure_zero(ret, csize, zeroed)). -/

/-- CHUNK_MAP_ZEROED. -/
def CHUNK_MAP_ZEROED : Nat := 0x04

/-- CHUNK_MAP_DECOMMITTED. -/
def CHUNK_MAP_DECOMMITTED : Nat := 0x20

/-- CHUNK_MAP_MADVISED. -/
def CHUNK_MAP_MADVISED : Nat := 0x40

/-- One page of an arena chunk: its map bits and its current contents. -/
structure PageState where
  bits : Nat
  content : Nat → Nat

/-- The zero-fill step of arena_t::SplitRun for one allocated page when
aZero is requested: a page whose map entry lacks CHUNK_MAP_ZEROED is
memset to zero, a page carrying the flag is left as is. -/
def splitRunZeroPage (p : PageState) : PageState :=
  if p.bits &&& CHUNK_MAP_ZEROED = 0 then ⟨p.bits, fun _ => 0⟩ else p

/-- arena_t::SplitRun's zero pass over the pages of the new run. -/
def splitRunZero (pages : List PageState) : List PageState :=
  pages.map splitRunZeroPage

/-- Contents of a run as one contiguous buffer. -/
def pagesContent (pages : List PageState) : Nat → Nat :=
  fun i => (pages.getD (i / pagesize) ⟨0, fun _ => 0⟩).content (i % pagesize)

/-- chunk_ensure_zero(ptr, size, zeroed): when zeroed is false the whole
region is memset to zero; when true it is left as is (the debug build
asserts it is already zero). -/
def chunkEnsureZero (content : Nat → Nat) (size : Nat) (zeroed : Bool) :
    Nat → Nat :=
  if zeroed = false then fun i => if i < size then 0 else content i
  else content

/-- Which path imalloc(num_size, zero=true) takes, with the state that
path finds: the pages backing a fresh large run, or the raw mapping and
chunk_alloc's zeroed bit for a huge allocation. -/
inductive AllocPath where
  | small
  | large (pages : List PageState)
  | huge (backing : Nat → Nat) (zeroed : Bool)

/-- num_size after calloc's zero-product promotion. -/
def callocEffSize (aNum aSize : Nat) : Nat :=
  if aNum * aSize % szW = 0 then 1 else aNum * aSize % szW

/-- Contents of the buffer calloc hands back, per path.  Small: MallocSmall
with aZero memsets the whole (rounded) region.  Large: SplitRun's zero pass
over the run's pages.  Huge: chunk_ensure_zero over csize bytes. -/
def callocContent (numSize : Nat) (path : AllocPath) (junk : Nat → Nat) :
    Nat → Nat :=
  match path with
  | .small => fun i => if i < mallocSmallSize numSize then 0 else junk i
  | .large pages => pagesContent (splitRunZero pages)
  | .huge backing zeroed => chunkEnsureZero backing (chunkCeiling numSize) zeroed

/-- Consistency of a path with the request size, together with the
environment facts calloc relies on: every page map entry carrying
CHUNK_MAP_ZEROED covers a page that really is zero (the invariant InitChunk
establishes from chunk_alloc's zeroed bit and DallocRun/Purge maintain by
clearing the flag), and chunk_alloc's zeroed=true output means the mapping
is zero-filled. -/
def PathWF (numSize : Nat) (path : AllocPath) : Prop :=
  match path with
  | .small => numSize ≤ binMaxclass
  | .large pages =>
      numSize ≤ arenaMaxclass ∧ binMaxclass < numSize ∧
      pageCeiling numSize ≤ pages.length * pagesize ∧
      (∀ p ∈ pages, p.bits &&& CHUNK_MAP_ZEROED ≠ 0 →
        ∀ j, j < pagesize → p.content j = 0)
  | .huge backing zeroed =>
      arenaMaxclass < numSize ∧ numSize ≤ szW - chunksize ∧
      (zeroed = true → ∀ i, i < chunkCeiling numSize → backing i = 0)

theorem chunkCeiling_eq {s : Nat} (h : s + chunksizeMask < szW) :
    chunkCeiling s = (s + 1048575) / 1048576 * 1048576 := by
  have hmk : chunksizeMask = 1048575 := rfl
  have hp : chunksize = 2 ^ 20 := rfl
  have h2 : s + 1048575 < szW := by rw [hmk] at h; exact h
  rw [chunkCeiling, szAdd_eq h, hmk, hp, land_szW_sub_pow (by norm_num) h2]
  norm_num

theorem le_chunkCeiling {s : Nat} (h : s + chunksizeMask < szW) :
    s ≤ chunkCeiling s := by
  rw [chunkCeiling_eq h]
  have h1 := Nat.div_add_mod (s + 1048575) 1048576
  have h2 : (s + 1048575) % 1048576 < 1048576 := Nat.mod_lt _ (by norm_num)
  omega

theorem le_mallocSmallSize {m : Nat} (h1 : 1 ≤ m) (h2 : m ≤ 2048) :
    m ≤ mallocSmallSize m := by
  have h := (usable_eq_good_below m h2).2.1
  rw [mallocUsable, if_neg (by omega), imallocUsable,
    if_pos (by rw [arenaMaxclass_val]; omega),
    if_pos (by rw [binMaxclass_val]; omega)] at h
  exact h

theorem callocNumSize_ok {k n : Nat} (hkn : k * n < szW) :
    callocNumSize k n = some (callocEffSize k n) := by
  simp only [callocNumSize, callocEffSize]
  have hmod : k * n % szW = k * n := Nat.mod_eq_of_lt hkn
  by_cases h0 : k * n % szW = 0
  · rw [if_pos h0, if_pos h0]
  · rw [if_neg h0, if_neg h0, if_neg]
    rintro ⟨-, hdiv⟩
    apply hdiv
    have hn : 0 < n := by
      rcases Nat.eq_zero_or_pos n with rfl | hn
      · exact absurd (by simp) h0
      · exact hn
    rw [hmod]
    exact Nat.mul_div_cancel k hn

theorem callocEffSize_eq {k n : Nat} (hkn : k * n < szW) :
    callocEffSize k n = if k * n = 0 then 1 else k * n := by
  rw [callocEffSize, Nat.mod_eq_of_lt hkn]

/-- C2: whenever k*n does not overflow size_t, calloc(k, n) either fails or
returns a buffer whose first k*n bytes are all zero, on each of the three
service paths — regardless of whether the backing was a fresh zeroed
mapping, a recycled chunk, or junk-filled memory (only pages whose map
entries carry CHUNK_MAP_ZEROED escape the explicit memset, and the flag
soundness invariant makes those pages zero already). -/
theorem C2_calloc_zeroes (k n : Nat) (path : AllocPath) (junk : Nat → Nat)
    (hkn : k * n < szW) (hwf : PathWF (callocEffSize k n) path) :
    callocNumSize k n = some (callocEffSize k n) ∧
    k * n ≤ callocEffSize k n ∧
    (∀ i, i < k * n → callocContent (callocEffSize k n) path junk i = 0) := by
  have heff := callocEffSize_eq hkn
  have hle : k * n ≤ callocEffSize k n := by
    rw [heff]
    by_cases h0 : k * n = 0
    · rw [if_pos h0]
      omega
    · rw [if_neg h0]
  have heff1 : 1 ≤ callocEffSize k n := by
    rw [heff]
    by_cases h0 : k * n = 0
    · rw [if_pos h0]
    · rw [if_neg h0]
      omega
  refine ⟨callocNumSize_ok hkn, hle, ?_⟩
  intro i hi
  match path with
  | .small =>
    have hclass : callocEffSize k n ≤ mallocSmallSize (callocEffSize k n) :=
      le_mallocSmallSize heff1 (by
        have := hwf
        rw [PathWF, binMaxclass_val] at this
        exact this)
    show (if i < mallocSmallSize (callocEffSize k n) then 0 else junk i) = 0
    rw [if_pos (by omega)]
  | .large pages =>
    obtain ⟨hmax, -, hlen, hflags⟩ := hwf
    have hwrap : callocEffSize k n + pagesizeMask < szW := by
      rw [arenaMaxclass_val] at hmax
      rw [pagesizeMask_val, szW_val]
      omega
    have hpc : callocEffSize k n ≤ pageCeiling (callocEffSize k n) :=
      le_pageCeiling hwrap
    have hibound : i < pages.length * pagesize := by
      rw [pagesize_val]
      rw [pagesize_val] at hlen
      omega
    have hidx : i / pagesize < pages.length :=
      (Nat.div_lt_iff_lt_mul (by rw [pagesize_val]; omega)).mpr hibound
    rw [callocContent, pagesContent, splitRunZero,
      List.getD_eq_getElem?_getD, List.getElem?_map,
      List.getElem?_eq_getElem hidx]
    simp only [Option.map_some', Option.getD_some]
    by_cases hz : (pages[i / pagesize]).bits &&& CHUNK_MAP_ZEROED = 0
    · rw [splitRunZeroPage, if_pos hz]
    · rw [splitRunZeroPage, if_neg hz]
      exact hflags _ (List.getElem_mem hidx) hz _
        (Nat.mod_lt _ (by rw [pagesize_val]; omega))
  | .huge backing zeroed =>
    obtain ⟨-, hbound, hz⟩ := hwf
    have hwrap : callocEffSize k n + chunksizeMask < szW := by
      rw [szW_val, chunksize_val] at hbound
      have : chunksizeMask = 1048575 := rfl
      rw [this, szW_val]
      omega
    have hcc : callocEffSize k n ≤ chunkCeiling (callocEffSize k n) :=
      le_chunkCeiling hwrap
    rw [callocContent, chunkEnsureZero]
    cases zeroed with
    | false =>
      rw [if_pos rfl]
      rw [if_pos (by omega)]
    | true =>
      rw [if_neg (by decide)]
      exact hz rfl i (by omega)

/-- Witness for C2 on all three paths at concrete inputs: a 2x3 small
request, a page-backed large request with one pre-zeroed and one junk
page, and a huge request over a junk mapping. -/
theorem C2_witness :
    (callocNumSize 2 3 = some (callocEffSize 2 3) ∧
      2 * 3 ≤ callocEffSize 2 3 ∧
      (∀ i, i < 2 * 3 →
        callocContent (callocEffSize 2 3) .small (fun _ => 229) i = 0)) ∧
    (callocNumSize 1 5000 = some (callocEffSize 1 5000) ∧
      1 * 5000 ≤ callocEffSize 1 5000 ∧
      (∀ i, i < 1 * 5000 →
        callocContent (callocEffSize 1 5000)
          (.large [⟨CHUNK_MAP_ZEROED, fun _ => 0⟩, ⟨0, fun _ => 229⟩])
          (fun _ => 229) i = 0)) ∧
    (callocNumSize 2 1048576 = some (callocEffSize 2 1048576) ∧
      2 * 1048576 ≤ callocEffSize 2 1048576 ∧
      (∀ i, i < 2 * 1048576 →
        callocContent (callocEffSize 2 1048576)
          (.huge (fun _ => 229) false) (fun _ => 229) i = 0)) := by
  refine ⟨C2_calloc_zeroes 2 3 .small (fun _ => 229) (by decide)
      (show callocEffSize 2 3 ≤ binMaxclass by decide),
    C2_calloc_zeroes 1 5000 (.large [⟨CHUNK_MAP_ZEROED, fun _ => 0⟩, ⟨0, fun _ => 229⟩])
      (fun _ => 229) (by decide) ?_,
    C2_calloc_zeroes 2 1048576 (.huge (fun _ => 229) false) (fun _ => 229)
      (by decide) ?_⟩
  · refine ⟨by decide, by decide, by decide, ?_⟩
    intro p hp hpz j hj
    fin_cases hp
    · rfl
    · simp [CHUNK_MAP_ZEROED] at hpz
  · exact ⟨by decide, by decide, fun h => absurd h (by decide)⟩

/-! Alignment of the aligned-allocation paths (claim C6).  The key fact for
the in-arena path is that a power-of-two alignment dividing the
(alignment-rounded) request also divides the chosen small size class, so
regions at run + reg0_offset + regind * reg_size stay aligned. -/

set_option maxRecDepth 100000 in
theorem smallClassDvdCheck : ((List.range 257).all (fun t => (t == 0) ||
    (List.range 9).all
    (fun j => !((8 * t) % 2 ^ (j + 3) == 0)
      || (mallocSmallSize (8 * t) % 2 ^ (j + 3) == 0)))) = true := by
  decide

theorem pow2_dvd_mallocSmallSize {k m : Nat} (hk3 : 3 ≤ k) (hk : k ≤ 11)
    (hm1 : 1 ≤ m) (hm2 : m ≤ 2048) (hdvd : 2 ^ k ∣ m) :
    2 ^ k ∣ mallocSmallSize m := by
  have h8m : 8 ∣ m := by
    have h := dvd_trans (pow_dvd_pow 2 hk3) hdvd
    norm_num at h
    exact h
  obtain ⟨t, ht⟩ := h8m
  have htb : t < 257 := by omega
  have hjb : k - 3 < 9 := by omega
  have hall := smallClassDvdCheck
  rw [List.all_eq_true] at hall
  have h1 := hall t (by simpa [List.mem_range] using htb)
  have ht0 : (t == 0) = false := by
    simp only [beq_eq_false_iff_ne, ne_eq]
    omega
  rw [ht0, Bool.false_or, List.all_eq_true] at h1
  have h2 := h1 (k - 3) (by simpa [List.mem_range] using hjb)
  have hkk : k - 3 + 3 = k := by omega
  rw [hkk] at h2
  have hmod : (8 * t) % 2 ^ k = 0 := by
    rw [← ht]
    exact Nat.dvd_iff_mod_eq_zero.mp hdvd
  rw [ht]
  simp only [hmod, beq_self_eq_true, Bool.not_true, Bool.false_or] at h2
  exact Nat.dvd_of_mod_eq_zero (by simpa using h2)

theorem alignmentCeiling_dvd (s : Nat) {k : Nat} (hk : k ≤ 64) :
    2 ^ k ∣ alignmentCeiling s (2 ^ k) := by
  rw [alignmentCeiling, land_szW_sub_pow hk (szAdd_lt _ _)]
  exact dvd_mul_left _ _

theorem le_alignmentCeiling {s k : Nat} (hk : k ≤ 64)
    (h : s + (2 ^ k - 1) < szW) : s ≤ alignmentCeiling s (2 ^ k) := by
  rw [alignmentCeiling, szAdd_eq h, land_szW_sub_pow hk (by omega), Nat.mul_comm]
  have hd := Nat.div_add_mod (s + (2 ^ k - 1)) (2 ^ k)
  have hm : (s + (2 ^ k - 1)) % 2 ^ k < 2 ^ k :=
    Nat.mod_lt _ (Nat.pos_pow_of_pos k (by norm_num))
  have h1 : 1 ≤ (2:Nat) ^ k := Nat.one_le_two_pow
  omega

theorem pageCeiling_two_pow {k : Nat} (hk : k ≤ 63) :
    pageCeiling (2 ^ k) = if k ≤ 12 then 4096 else 2 ^ k := by
  have h63 : (2:Nat) ^ k ≤ 9223372036854775808 := by
    calc (2:Nat) ^ k ≤ 2 ^ 63 := Nat.pow_le_pow_right (by norm_num) hk
    _ = 9223372036854775808 := by norm_num
  have hwrap : 2 ^ k + pagesizeMask < szW := by
    rw [pagesizeMask_val, szW_val]
    omega
  rw [pageCeiling_eq hwrap]
  have h1 : 1 ≤ (2:Nat) ^ k := Nat.one_le_two_pow
  by_cases h12 : k ≤ 12
  · rw [if_pos h12]
    have h2 : (2:Nat) ^ k ≤ 4096 := by
      calc (2:Nat) ^ k ≤ 2 ^ 12 := Nat.pow_le_pow_right (by norm_num) h12
      _ = 4096 := by norm_num
    have hq : ((2:Nat) ^ k + 4095) / 4096 = 1 := by omega
    rw [hq]
  · rw [if_neg h12]
    have hK : (2:Nat) ^ k = 2 ^ (k - 12) * 4096 := by
      rw [show (4096:Nat) = 2 ^ 12 by norm_num, ← pow_add]
      congr 1
      omega
    rw [hK]
    have hq : ((2:Nat) ^ (k - 12) * 4096 + 4095) / 4096 = 2 ^ (k - 12) := by omega
    rw [hq]

theorem pagesize_dvd_largeRunAddr (pl : Place) : 4096 ∣ largeRunAddr pl := by
  rw [largeRunAddr, chunksize_val, pagesize_val]
  exact Nat.dvd_add (Dvd.dvd.mul_left (by norm_num) _) (dvd_mul_left _ _)

/-- Alignment of every address ipallocAddr can return, for a power-of-two
alignment of at least sizeof(void*): the request size is first rounded to a
multiple of the alignment, small classes of such sizes are themselves
multiples of it, large runs and Palloc results are explicitly aligned, and
the huge path maps at chunk (or larger) alignment. -/
theorem ipallocAddr_aligned {k : Nat} (n : Nat) (pl : Place) (addr : Nat)
    (hk3 : 3 ≤ k) (hkW : k ≤ 63) (hn1 : 1 ≤ n)
    (hrun : pl.runSize % pagesize = 0)
    (hres : ipallocAddr (2 ^ k) n pl = some addr) :
    2 ^ k ∣ addr := by
  rw [ipallocAddr] at hres
  by_cases hfail : pl.fail
  · rw [if_pos hfail] at hres
    exact absurd hres (by simp)
  rw [if_neg hfail] at hres
  set C := alignmentCeiling n (2 ^ k) with hCdef
  have hCdvd : 2 ^ k ∣ C := alignmentCeiling_dvd n (by omega)
  by_cases hov : C < n
  · rw [if_pos hov] at hres
    exact absurd hres (by simp)
  rw [if_neg hov] at hres
  push_neg at hov
  have hC1 : 1 ≤ C := le_trans hn1 hov
  have haC : 2 ^ k ≤ C := Nat.le_of_dvd (by omega) hCdvd
  by_cases hpath : C ≤ pagesize ∨ (2 ^ k ≤ pagesize ∧ C ≤ arenaMaxclass)
  · rw [if_pos hpath] at hres
    have hk12 : k ≤ 12 := by
      have h2k : (2:Nat) ^ k ≤ 4096 := by
        rcases hpath with h | h
        · rw [pagesize_val] at h
          omega
        · rw [pagesize_val] at h
          exact h.1
      rw [show (4096:Nat) = 2 ^ 12 by norm_num] at h2k
      exact (Nat.pow_le_pow_iff_right (by norm_num : (1:Nat) < 2)).mp h2k
    have hdvd4096 : (2:Nat) ^ k ∣ 4096 := by
      rw [show (4096:Nat) = 2 ^ 12 by norm_num]
      exact pow_dvd_pow 2 hk12
    have haddr : arenaMallocAddr C pl = addr := by
      injection hres
    rw [← haddr]
    rw [arenaMallocAddr]
    by_cases hsmall : C ≤ binMaxclass
    · rw [if_pos hsmall]
      rw [binMaxclass_val] at hsmall
      have hk11 : k ≤ 11 := by
        have : (2:Nat) ^ k ≤ 2 ^ 11 := by
          calc (2:Nat) ^ k ≤ C := haC
          _ ≤ 2048 := hsmall
          _ = 2 ^ 11 := by norm_num
        exact (Nat.pow_le_pow_iff_right (by norm_num : (1:Nat) < 2)).mp this
      have hdvdS : 2 ^ k ∣ mallocSmallSize C :=
        pow2_dvd_mallocSmallSize hk3 hk11 hC1 hsmall hCdvd
      have hdvdRun : 2 ^ k ∣ pl.runSize := by
        rw [pagesize_val] at hrun
        exact dvd_trans hdvd4096 (Nat.dvd_of_mod_eq_zero hrun)
      rw [smallRegionAddr, chunksize_val, pagesize_val]
      refine Nat.dvd_add (Nat.dvd_add (Nat.dvd_add ?_ ?_) ?_) ?_
      · exact Dvd.dvd.mul_left (dvd_trans hdvd4096 (by norm_num)) _
      · exact Dvd.dvd.mul_left hdvd4096 _
      · exact Nat.dvd_sub' hdvdRun (Dvd.dvd.mul_left hdvdS _)
      · exact Dvd.dvd.mul_left hdvdS _
    · rw [if_neg hsmall]
      exact dvd_trans hdvd4096 (pagesize_dvd_largeRunAddr pl)
  · rw [if_neg hpath] at hres
    have halign : pageCeiling (2 ^ k) = if k ≤ 12 then 4096 else 2 ^ k :=
      pageCeiling_two_pow hkW
    by_cases hov2 : pageCeiling n < n ∨ szAdd (pageCeiling n) (pageCeiling (2 ^ k)) < pageCeiling n
    · rw [if_pos hov2] at hres
      exact absurd hres (by simp)
    rw [if_neg hov2] at hres
    by_cases hpal : (if pageCeiling (2 ^ k) ≤ pageCeiling n then
        pageCeiling n + pageCeiling (2 ^ k) - pagesize
        else szSub (pageCeiling (2 ^ k) <<< 1) pagesize) ≤ arenaMaxclass
    · rw [if_pos hpal] at hres
      have haddr : pallocAddr (pageCeiling (2 ^ k)) pl = addr := by
        injection hres
      rw [← haddr, pallocAddr]
      have hret4096 : 4096 ∣ largeRunAddr pl := pagesize_dvd_largeRunAddr pl
      by_cases h12 : k ≤ 12
      · rw [halign, if_pos h12]
        have hoff : largeRunAddr pl &&& (4096 - 1) = 0 := by
          rw [show (4096:Nat) = 2 ^ 12 by norm_num,
            Nat.and_pow_two_sub_one_eq_mod,
            show (2:Nat) ^ 12 = 4096 by norm_num]
          exact Nat.dvd_iff_mod_eq_zero.mp hret4096
        rw [if_pos hoff]
        have hdvd4096p : (2:Nat) ^ k ∣ 4096 := by
          rw [show (4096:Nat) = 2 ^ 12 by norm_num]
          exact pow_dvd_pow 2 h12
        exact dvd_trans hdvd4096p hret4096
      · rw [halign, if_neg h12]
        have hoffeq : largeRunAddr pl &&& (2 ^ k - 1) = largeRunAddr pl % 2 ^ k :=
          Nat.and_pow_two_sub_one_eq_mod _ k
        rw [hoffeq]
        by_cases hz0 : largeRunAddr pl % 2 ^ k = 0
        · rw [if_pos hz0]
          exact Nat.dvd_of_mod_eq_zero hz0
        · rw [if_neg hz0]
          have hd := Nat.div_add_mod (largeRunAddr pl) (2 ^ k)
          have hm : largeRunAddr pl % 2 ^ k < 2 ^ k :=
            Nat.mod_lt _ (Nat.pos_pow_of_pos k (by norm_num))
          refine ⟨largeRunAddr pl / 2 ^ k + 1, ?_⟩
          rw [Nat.mul_add, Nat.mul_one]
          omega
    · rw [if_neg hpal] at hres
      by_cases hch : pageCeiling (2 ^ k) ≤ chunksize
      · rw [if_pos hch] at hres
        have haddr : chunkAllocAddr chunksize pl = addr := by
          injection hres
        rw [← haddr, chunkAllocAddr]
        have h20 : (chunksize : Nat) = 2 ^ 20 := rfl
        have hk20 : k ≤ 20 := by
          by_cases h12 : k ≤ 12
          · omega
          · rw [halign, if_neg h12, h20] at hch
            exact (Nat.pow_le_pow_iff_right (by norm_num : (1:Nat) < 2)).mp hch
        rw [h20]
        exact dvd_trans (pow_dvd_pow 2 hk20)
          (alignmentCeiling_dvd _ (by norm_num))
      · rw [if_neg hch] at hres
        have haddr : chunkAllocAddr (pageCeiling (2 ^ k)) pl = addr := by
          injection hres
        rw [← haddr, chunkAllocAddr]
        have h12 : ¬ k ≤ 12 := by
          intro h12c
          rw [halign, if_pos h12c] at hch
          exact hch (by rw [chunksize_val]; omega)
        rw [halign, if_neg h12]
        exact alignmentCeiling_dvd _ (by omega)

/-- C6: a successful posix_memalign(out, a, n) with power-of-two
a >= sizeof(void*) stores a pointer with p mod a == 0, whichever of the
four ipalloc service paths produced it. -/
theorem C6_posix_memalign_alignment (a n k : Nat) (pl : Place) (addr : Nat)
    (ha : a = 2 ^ k) (ha8 : sizeofPtr ≤ a) (hkW : k ≤ 63)
    (hrun : pl.runSize % pagesize = 0)
    (hret : (posixMemalign a n pl).out = some addr) :
    addr % a = 0 := by
  have hk3 : 3 ≤ k := by
    rw [ha, sizeofPtr] at ha8
    by_contra hlt
    push_neg at hlt
    interval_cases k <;> norm_num at ha8
  have hz : (a - 1) &&& a = 0 := by
    rw [ha]
    exact land_pred_two_pow k
  have hguard : ¬((a - 1) &&& a ≠ 0 ∨ a < sizeofPtr) := by
    push_neg
    exact ⟨hz, ha8⟩
  rw [posixMemalign, if_neg hguard, memalign, if_pos hz] at hret
  have hea : memalignEffAlign a = a := by
    rw [memalignEffAlign, if_neg]
    omega
  rw [hea] at hret
  cases hip : ipallocAddr a (memalignEffSize n) pl with
  | none =>
    rw [hip] at hret
    exact absurd hret (by simp)
  | some b =>
    rw [hip] at hret
    obtain rfl : b = addr := by simpa using hret
    rw [ha] at hip
    have hdvd := ipallocAddr_aligned (memalignEffSize n) pl b hk3 hkW
      (by rw [memalignEffSize]; split <;> omega) hrun hip
    rw [ha]
    exact Nat.dvd_iff_mod_eq_zero.mp hdvd

/-- Placement for the C6 witness: chunk 5, page 2, a one-region page run. -/
def wPl : Place := ⟨5, 2, pagesize, 1, 0, 0, false⟩

/-- Witness for C6: posix_memalign(out, 4096, 4096) at this placement
returns the page-aligned large run address 5*chunksize + 2*pagesize. -/
theorem C6_witness : (5 * chunksize + 2 * pagesize) % 4096 = 0 :=
  C6_posix_memalign_alignment 4096 4096 12 wPl (5 * chunksize + 2 * pagesize)
    (by norm_num) (by decide) (by decide) (by decide) (by decide)

/-! Model of a bin's run bookkeeping (arena_t::MallocBinEasy /
MallocBinHard / GetNonFullBinRun and the bin part of arena_t::DallocSmall),
claim C8.  A run is its address plus its free-region count; a bin holds its
nregs, the live runs, runcur, and the contents of the non-full runs tree
(rb-tree First() = the minimum address). -/

/-- A small run of one bin: address and free-region count. -/
structure BinRun where
  addr : Nat
  nfree : Nat
  deriving DecidableEq, Repr

/-- A bin's state: region count per run, live runs, runcur, non-full tree. -/
structure BinState where
  nregs : Nat
  runs : List BinRun
  runcur : Option Nat
  tree : List Nat
  deriving DecidableEq, Repr

/-- Look a run up by address. -/
def findRun (rs : List BinRun) (a : Nat) : Option BinRun :=
  rs.find? (fun r => r.addr == a)

/-- Replace the free count of the run at address a. -/
def setNfree (rs : List BinRun) (a n : Nat) : List BinRun :=
  rs.map (fun r => if r.addr = a then ⟨a, n⟩ else r)

/-- Drop the run at address a. -/
def removeRun (rs : List BinRun) (a : Nat) : List BinRun :=
  rs.filter (fun r => r.addr ≠ a)

/-- bin->runs.First(): the lowest address in the tree. -/
def treeFirst : List Nat → Option Nat
  | [] => none
  | a :: rest =>
    match treeFirst rest with
    | none => some a
    | some b => some (min a b)

/-- arena_t::MallocBinHard / GetNonFullBinRun: take the lowest-addressed
run from the non-full tree, or create a fresh run (nfree = nregs) at a new
address — fresh = none models AllocRun failing, which leaves runcur null.
The fresh address must be genuinely fresh (AllocRun returns new memory);
the step is undefined otherwise.  The chosen run becomes runcur and one
region is allocated from it (MallocBinEasy: nfree--). -/
def mallocBinHard (st : BinState) (fresh : Option Nat) : Option BinState :=
  match treeFirst st.tree with
  | some a =>
    match findRun st.runs a with
    | some r =>
      some { st with tree := st.tree.filter (· ≠ a), runcur := some a,
                     runs := setNfree st.runs a (r.nfree - 1) }
    | none => none
  | none =>
    match fresh with
    | none => some { st with runcur := none }
    | some f =>
      if f ∈ st.runs.map BinRun.addr then none
      else some { st with runs := ⟨f, st.nregs - 1⟩ :: st.runs,
                          runcur := some f }

/-- The bin part of one arena_t::MallocSmall call: allocate from runcur if
it has a free region (MallocBinEasy), else refill runcur (MallocBinHard). -/
def mallocBinStep (st : BinState) (fresh : Option Nat) : Option BinState :=
  match st.runcur with
  | some rc =>
    match findRun st.runs rc with
    | some r =>
      if 0 < r.nfree then some { st with runs := setNfree st.runs rc (r.nfree - 1) }
      else mallocBinHard st fresh
    | none => none
  | none => mallocBinHard st fresh

/-- The bin part of arena_t::DallocSmall for a region of the run at a:
nfree++; if the run is now empty, drop it from runcur or (when nregs > 1)
from the tree and destroy it; if it just became non-full, install it as
runcur when runcur is null or higher-addressed (pushing a still-non-full
old runcur into the tree), else insert it into the tree. -/
def dallocBinStep (st : BinState) (a : Nat) : Option BinState :=
  match findRun st.runs a with
  | none => none
  | some r =>
    if st.nregs ≤ r.nfree then none
    else if r.nfree + 1 = st.nregs then
      if st.runcur = some a then
        some { st with runcur := none, runs := removeRun st.runs a }
      else if st.nregs ≠ 1 then
        some { st with tree := st.tree.filter (· ≠ a),
                       runs := removeRun st.runs a }
      else
        some { st with runs := removeRun st.runs a }
    else
      if r.nfree + 1 = 1 ∧ st.runcur ≠ some a then
        match st.runcur with
        | none =>
          some { st with runs := setNfree st.runs a (r.nfree + 1),
                         runcur := some a }
        | some rc =>
          if a < rc then
            match findRun st.runs rc with
            | none => none
            | some rcur =>
              some { st with runs := setNfree st.runs a (r.nfree + 1),
                             runcur := some a,
                             tree := if 0 < rcur.nfree then rc :: st.tree
                                     else st.tree }
          else
            some { st with runs := setNfree st.runs a (r.nfree + 1),
                           tree := a :: st.tree }
      else
        some { st with runs := setNfree st.runs a (r.nfree + 1) }

/-- One bin operation: a small allocation (with the address AllocRun would
hand out if a fresh run is needed; none = AllocRun fails) or a small free
of a region of the run at the given address. -/
inductive BinOp where
  | alloc (fresh : Option Nat)
  | free (addr : Nat)

/-- One step of the bin state machine. -/
def binStep (st : BinState) : BinOp → Option BinState
  | .alloc f => mallocBinStep st f
  | .free a => dallocBinStep st a

/-- Run a sequence of bin operations. -/
def runOps (st : BinState) (ops : List BinOp) : Option BinState :=
  ops.foldl (fun acc op => acc.bind (fun s => binStep s op)) (some st)

/-- A freshly initialized bin (arena_t::Init): no runs, runcur null. -/
def initBin (nregs : Nat) : BinState := ⟨nregs, [], none, []⟩

/-- Counterexample to C8 as stated, with two-region runs.  Fill four fresh
runs 1,2,3,4 (each .alloc twice): at that lock release runcur is run 4 and
run 4 is completely full — already contradicting "no completely full run
appears as runcur".  Then free one region of run 2 (runcur becomes 2; the
full old runcur 4 is forgotten, not pushed), one of run 3 (inserted into
the tree), the last of run 2 (run 2 empties and is destroyed, runcur
becomes null), and one of run 4: DallocSmall installs run 4 as runcur
without consulting the tree, so runcur is the non-full run 4 while the
tree holds the lower-addressed non-full run 3 — contradicting "runcur is
the lowest-addressed non-full run". -/
theorem C8_counterexample :
    ((runOps (initBin 2) [.alloc (some 1), .alloc (some 1), .alloc (some 2),
        .alloc (some 2), .alloc (some 3), .alloc (some 3), .alloc (some 4),
        .alloc (some 4)]).bind
      (fun st => (findRun st.runs 4).map (fun r => (st.runcur, r.nfree)))
      = some (some 4, 0)) ∧
    ((runOps (initBin 2) [.alloc (some 1), .alloc (some 1), .alloc (some 2),
        .alloc (some 2), .alloc (some 3), .alloc (some 3), .alloc (some 4),
        .alloc (some 4), .free 2, .free 3, .free 2, .free 4]).bind
      (fun st => (findRun st.runs 3).map
        (fun r3 => (st.runcur, decide (3 ∈ st.tree), r3.nfree)))
      = some (some 4, true, 1)) := by
  decide

/-! Helper lemmas for the bin bookkeeping model. -/

theorem findRun_eq {rs : List BinRun} {a : Nat} {r : BinRun}
    (h : findRun rs a = some r) : r ∈ rs ∧ r.addr = a := by
  refine ⟨List.mem_of_find?_eq_some h, ?_⟩
  have := List.find?_some h
  simpa using this

theorem findRun_of_mem {rs : List BinRun} {r : BinRun}
    (hn : (rs.map BinRun.addr).Nodup) (hr : r ∈ rs) :
    findRun rs r.addr = some r := by
  induction rs with
  | nil => exact absurd hr (by simp)
  | cons x xs ih =>
    rcases List.mem_cons.mp hr with rfl | hr2
    · exact List.find?_cons_of_pos _ (by simp)
    · rw [List.map_cons, List.nodup_cons] at hn
      have hne : ¬ (x.addr == r.addr) = true := by
        simp only [beq_iff_eq]
        intro heq
        exact hn.1 (heq ▸ List.mem_map.mpr ⟨r, hr2, rfl⟩)
      have hstep : List.find? (fun q : BinRun => q.addr == r.addr) (x :: xs)
          = List.find? (fun q : BinRun => q.addr == r.addr) xs :=
        List.find?_cons_of_neg xs hne
      rw [findRun, hstep]
      exact ih hn.2 hr2

theorem addr_inj {rs : List BinRun} (hn : (rs.map BinRun.addr).Nodup)
    {r1 r2 : BinRun} (h1 : r1 ∈ rs) (h2 : r2 ∈ rs)
    (heq : r1.addr = r2.addr) : r1 = r2 :=
  List.inj_on_of_nodup_map hn h1 h2 heq

theorem setNfree_map_addr (rs : List BinRun) (a n : Nat) :
    (setNfree rs a n).map BinRun.addr = rs.map BinRun.addr := by
  rw [setNfree, List.map_map]
  apply List.map_congr_left
  intro r _
  by_cases h : r.addr = a <;> simp [h]

theorem mem_setNfree {rs : List BinRun} {a n : Nat} {r2 : BinRun}
    (h : r2 ∈ setNfree rs a n) :
    (r2 ∈ rs ∧ r2.addr ≠ a) ∨ (r2 = ⟨a, n⟩ ∧ ∃ r1 ∈ rs, r1.addr = a) := by
  rw [setNfree] at h
  obtain ⟨r1, hr1, hmap⟩ := List.mem_map.mp h
  by_cases hh : r1.addr = a
  · right
    rw [if_pos hh] at hmap
    exact ⟨hmap.symm, r1, hr1, hh⟩
  · left
    rw [if_neg hh] at hmap
    exact ⟨hmap ▸ hr1, hmap ▸ hh⟩

theorem setNfree_mem_of_ne {rs : List BinRun} {a n : Nat} {r1 : BinRun}
    (hr : r1 ∈ rs) (hne : r1.addr ≠ a) : r1 ∈ setNfree rs a n := by
  rw [setNfree]
  exact List.mem_map.mpr ⟨r1, hr, by rw [if_neg hne]⟩

theorem setNfree_mem_self {rs : List BinRun} {a n : Nat} {r1 : BinRun}
    (hr : r1 ∈ rs) (heq : r1.addr = a) :
    (⟨a, n⟩ : BinRun) ∈ setNfree rs a n := by
  rw [setNfree]
  exact List.mem_map.mpr ⟨r1, hr, by rw [if_pos heq]⟩

theorem mem_removeRun {rs : List BinRun} {a : Nat} {r2 : BinRun} :
    r2 ∈ removeRun rs a ↔ r2 ∈ rs ∧ r2.addr ≠ a := by
  rw [removeRun]
  simp [List.mem_filter]

theorem removeRun_map_nodup {rs : List BinRun} {a : Nat}
    (hn : (rs.map BinRun.addr).Nodup) :
    ((removeRun rs a).map BinRun.addr).Nodup :=
  List.Nodup.sublist (List.Sublist.map _ (List.filter_sublist rs)) hn

theorem treeFirst_mem {t : List Nat} {a : Nat} (h : treeFirst t = some a) :
    a ∈ t := by
  induction t with
  | nil => exact absurd h (by simp [treeFirst])
  | cons x xs ih =>
    rw [treeFirst] at h
    cases hf : treeFirst xs with
    | none =>
      rw [hf] at h
      injection h with h
      exact h ▸ List.mem_cons_self x xs
    | some b =>
      rw [hf] at h
      injection h with h
      rcases le_total x b with hle | hle
      · rw [min_eq_left hle] at h
        exact h ▸ List.mem_cons_self x xs
      · rw [min_eq_right hle] at h
        exact List.mem_cons_of_mem x (ih (h ▸ hf))

/-- The bin bookkeeping invariant, C8 as amended: nregs is positive, run
addresses and tree entries are unique, every tree entry is a live non-full
run (full runs never sit in the tree), free counts stay below nregs (empty
runs are destroyed at once), every non-full run is either runcur or in the
tree, runcur is never simultaneously in the tree, and runcur is a live
run.  runcur itself may be completely full and need not be the
lowest-addressed non-full run. -/
def BinWF (st : BinState) : Prop :=
  1 ≤ st.nregs ∧
  (st.runs.map BinRun.addr).Nodup ∧
  st.tree.Nodup ∧
  (∀ a ∈ st.tree, ∃ r ∈ st.runs, r.addr = a ∧ 0 < r.nfree) ∧
  (∀ r ∈ st.runs, r.nfree < st.nregs) ∧
  (∀ r ∈ st.runs, 0 < r.nfree → st.runcur = some r.addr ∨ r.addr ∈ st.tree) ∧
  (∀ a ∈ st.tree, st.runcur ≠ some a) ∧
  (∀ a ∈ st.runcur.toList, a ∈ st.runs.map BinRun.addr)

instance (st : BinState) : Decidable (BinWF st) := by
  unfold BinWF
  infer_instance

theorem treeFirst_eq_none {t : List Nat} (h : treeFirst t = none) : t = [] := by
  cases t with
  | nil => rfl
  | cons x xs =>
    rw [treeFirst] at h
    cases hf : treeFirst xs <;> rw [hf] at h <;> exact absurd h (by simp)

theorem mallocBinHard_wf {st : BinState} {fresh : Option Nat} {st2 : BinState}
    (hwf : BinWF st)
    (hrc : ∀ rc r, st.runcur = some rc → findRun st.runs rc = some r → r.nfree = 0)
    (h : mallocBinHard st fresh = some st2) : BinWF st2 := by
  obtain ⟨hn1, hnd, htd, htree, hlt, htrack, hct, hcur⟩ := hwf
  rw [mallocBinHard.eq_def] at h
  cases htf : treeFirst st.tree with
  | some a =>
    rw [htf] at h
    dsimp only at h
    cases hfr : findRun st.runs a with
    | none =>
      rw [hfr] at h
      exact absurd h (by simp)
    | some r =>
      rw [hfr] at h
      dsimp only at h
      injection h with h
      subst h
      obtain ⟨hrmem, hraddr⟩ := findRun_eq hfr
      refine ⟨hn1, by rw [setNfree_map_addr]; exact hnd,
        List.Nodup.filter _ htd, ?_, ?_, ?_, ?_, ?_⟩
      · intro a2 ha2
        rw [List.mem_filter] at ha2
        obtain ⟨ha2t, ha2ne⟩ := ha2
        have hane : a2 ≠ a := by simpa using ha2ne
        obtain ⟨r2, hr2mem, hr2addr, hr2pos⟩ := htree a2 ha2t
        exact ⟨r2, setNfree_mem_of_ne hr2mem (by rw [hr2addr]; exact hane),
          hr2addr, hr2pos⟩
      · intro r2 hr2
        rcases mem_setNfree hr2 with ⟨hmem, -⟩ | ⟨heq, -⟩
        · exact hlt r2 hmem
        · rw [heq]
          have := hlt r hrmem
          show r.nfree - 1 < st.nregs
          omega
      · intro r2 hr2 hpos
        rcases mem_setNfree hr2 with ⟨hmem, hne⟩ | ⟨heq, -⟩
        · rcases htrack r2 hmem hpos with hc | ht
          · exfalso
            have := hrc r2.addr r2 hc (findRun_of_mem hnd hmem)
            omega
          · right
            rw [List.mem_filter]
            exact ⟨ht, by simpa using hne⟩
        · left
          rw [heq]
      · intro a2 ha2
        rw [List.mem_filter] at ha2
        have hane : a2 ≠ a := by simpa using ha2.2
        simp only [ne_eq, Option.some.injEq]
        intro heq
        exact hane heq.symm
      · intro a2 ha2
        have ha2a : a2 = a := by simpa using ha2
        rw [setNfree_map_addr, ha2a, ← hraddr]
        exact List.mem_map.mpr ⟨r, hrmem, rfl⟩
  | none =>
    rw [htf] at h
    dsimp only at h
    have htreeNil : st.tree = [] := treeFirst_eq_none htf
    cases fresh with
    | none =>
      dsimp only at h
      injection h with h
      subst h
      refine ⟨hn1, hnd, htd, htree, hlt, ?_, ?_, ?_⟩
      · intro r2 hr2 hpos
        rcases htrack r2 hr2 hpos with hc | ht
        · exfalso
          have := hrc r2.addr r2 hc (findRun_of_mem hnd hr2)
          omega
        · right
          exact ht
      · intro a2 ha2
        rw [htreeNil] at ha2
        exact absurd ha2 (by simp)
      · intro a2 ha2
        exact absurd ha2 (by simp)
    | some f =>
      dsimp only at h
      by_cases hmem : f ∈ st.runs.map BinRun.addr
      · rw [if_pos hmem] at h
        exact absurd h (by simp)
      · rw [if_neg hmem] at h
        injection h with h
        subst h
        refine ⟨hn1, ?_, htd, ?_, ?_, ?_, ?_, ?_⟩
        · rw [List.map_cons]
          exact List.nodup_cons.mpr ⟨hmem, hnd⟩
        · intro a2 ha2
          rw [htreeNil] at ha2
          exact absurd ha2 (by simp)
        · intro r2 hr2
          rcases List.mem_cons.mp hr2 with rfl | hmem2
          · show st.nregs - 1 < st.nregs
            omega
          · exact hlt r2 hmem2
        · intro r2 hr2 hpos
          rcases List.mem_cons.mp hr2 with rfl | hmem2
          · left
            rfl
          · rcases htrack r2 hmem2 hpos with hc | ht
            · exfalso
              have := hrc r2.addr r2 hc (findRun_of_mem hnd hmem2)
              omega
            · rw [htreeNil] at ht
              exact absurd ht (by simp)
        · intro a2 ha2
          rw [htreeNil] at ha2
          exact absurd ha2 (by simp)
        · intro a2 ha2
          have ha2f : a2 = f := by simpa using ha2
          rw [ha2f, List.map_cons]
          exact List.mem_cons_self _ _

theorem mallocBinStep_wf {st : BinState} {fresh : Option Nat} {st2 : BinState}
    (hwf : BinWF st) (h : mallocBinStep st fresh = some st2) : BinWF st2 := by
  rw [mallocBinStep.eq_def] at h
  cases hc : st.runcur with
  | none =>
    rw [hc] at h
    dsimp only at h
    refine mallocBinHard_wf hwf ?_ h
    intro rc r hrc _
    rw [hc] at hrc
    exact absurd hrc (by simp)
  | some rc =>
    rw [hc] at h
    dsimp only at h
    cases hfr : findRun st.runs rc with
    | none =>
      rw [hfr] at h
      exact absurd h (by simp)
    | some r =>
      rw [hfr] at h
      dsimp only at h
      by_cases hpos : 0 < r.nfree
      · rw [if_pos hpos] at h
        injection h with h
        subst h
        obtain ⟨hn1, hnd, htd, htree, hlt, htrack, hct, hcur⟩ := hwf
        obtain ⟨hrmem, hraddr⟩ := findRun_eq hfr
        refine ⟨hn1, by rw [setNfree_map_addr]; exact hnd, htd, ?_, ?_, ?_, ?_, ?_⟩
        · intro a2 ha2
          obtain ⟨r2, hr2mem, hr2addr, hr2pos⟩ := htree a2 ha2
          have hne : r2.addr ≠ rc := by
            intro heq
            exact hct a2 ha2 (by rw [hc, ← heq, hr2addr])
          exact ⟨r2, setNfree_mem_of_ne hr2mem hne, hr2addr, hr2pos⟩
        · intro r2 hr2
          rcases mem_setNfree hr2 with ⟨hmem, -⟩ | ⟨heq, -⟩
          · exact hlt r2 hmem
          · rw [heq]
            have := hlt r hrmem
            show r.nfree - 1 < st.nregs
            omega
        · intro r2 hr2 hpos2
          rcases mem_setNfree hr2 with ⟨hmem, -⟩ | ⟨heq, -⟩
          · rcases htrack r2 hmem hpos2 with hcc | ht
            · left
              show some rc = some r2.addr
              rw [← hc]
              exact hcc
            · right
              exact ht
          · left
            rw [heq]
        · intro a2 ha2
          show some rc ≠ some a2
          rw [← hc]
          exact hct a2 ha2
        · intro a2 ha2
          have ha2rc : a2 = rc := by simpa using ha2
          rw [setNfree_map_addr, ha2rc]
          exact hcur rc (by rw [hc]; simp)
      · rw [if_neg hpos] at h
        refine mallocBinHard_wf hwf ?_ h
        intro rc2 r2 hrc2 hfr2
        rw [hc] at hrc2
        have hrceq : rc = rc2 := Option.some.inj hrc2
        rw [← hrceq] at hfr2
        have hr2r : r2 = r := Option.some.inj (hfr2.symm.trans hfr)
        rw [hr2r]
        omega

theorem dallocBinStep_wf {st : BinState} {a : Nat} {st2 : BinState}
    (hwf : BinWF st) (h : dallocBinStep st a = some st2) : BinWF st2 := by
  obtain ⟨hn1, hnd, htd, htree, hlt, htrack, hct, hcur⟩ := hwf
  rw [dallocBinStep.eq_def] at h
  cases hfr : findRun st.runs a with
  | none =>
    rw [hfr] at h
    exact absurd h (by simp)
  | some r =>
    rw [hfr] at h
    dsimp only at h
    obtain ⟨hrmem, hraddr⟩ := findRun_eq hfr
    by_cases hguard : st.nregs ≤ r.nfree
    · rw [if_pos hguard] at h
      exact absurd h (by simp)
    rw [if_neg hguard] at h
    push_neg at hguard
    by_cases hempty : r.nfree + 1 = st.nregs
    · rw [if_pos hempty] at h
      by_cases hcura : st.runcur = some a
      · rw [if_pos hcura] at h
        injection h with h
        subst h
        refine ⟨hn1, removeRun_map_nodup hnd, htd, ?_, ?_, ?_, ?_, ?_⟩
        · intro a2 ha2
          obtain ⟨r2, hr2mem, hr2addr, hr2pos⟩ := htree a2 ha2
          have hne : r2.addr ≠ a := by
            intro heq
            exact hct a2 ha2
              (by rw [hcura]; exact congrArg some (heq.symm.trans hr2addr))
          exact ⟨r2, mem_removeRun.mpr ⟨hr2mem, hne⟩, hr2addr, hr2pos⟩
        · intro r2 hr2
          exact hlt r2 (mem_removeRun.mp hr2).1
        · intro r2 hr2 hpos
          obtain ⟨hmem, hne⟩ := mem_removeRun.mp hr2
          rcases htrack r2 hmem hpos with hcc | ht
          · exfalso
            have hsome : some a = some r2.addr := hcura ▸ hcc
            exact hne (Option.some.inj hsome).symm
          · right
            exact ht
        · intro a2 ha2
          show (none : Option Nat) ≠ some a2
          simp
        · intro a2 ha2
          exact absurd ha2 (by simp)
      · rw [if_neg hcura] at h
        by_cases hone : st.nregs ≠ 1
        · rw [if_pos hone] at h
          injection h with h
          subst h
          refine ⟨hn1, removeRun_map_nodup hnd, List.Nodup.filter _ htd,
            ?_, ?_, ?_, ?_, ?_⟩
          · intro a2 ha2
            rw [List.mem_filter] at ha2
            obtain ⟨ha2t, ha2ne⟩ := ha2
            have hne2 : a2 ≠ a := by simpa using ha2ne
            obtain ⟨r2, hr2mem, hr2addr, hr2pos⟩ := htree a2 ha2t
            exact ⟨r2, mem_removeRun.mpr ⟨hr2mem, by rw [hr2addr]; exact hne2⟩,
              hr2addr, hr2pos⟩
          · intro r2 hr2
            exact hlt r2 (mem_removeRun.mp hr2).1
          · intro r2 hr2 hpos
            obtain ⟨hmem, hne⟩ := mem_removeRun.mp hr2
            rcases htrack r2 hmem hpos with hcc | ht
            · left
              exact hcc
            · right
              rw [List.mem_filter]
              exact ⟨ht, by simpa using hne⟩
          · intro a2 ha2
            rw [List.mem_filter] at ha2
            exact hct a2 ha2.1
          · intro a2 ha2
            obtain ⟨r2, hr2mem, hr2addr⟩ := List.mem_map.mp (hcur a2 ha2)
            have ha2c : st.runcur = some a2 := by
              cases hcr : st.runcur with
              | none =>
                rw [hcr] at ha2
                exact absurd ha2 (by simp)
              | some x =>
                rw [hcr] at ha2
                have hax : a2 = x := by simpa using ha2
                rw [hax]
            have hne : a2 ≠ a := fun he => hcura (he ▸ ha2c)
            exact List.mem_map.mpr ⟨r2,
              mem_removeRun.mpr ⟨hr2mem, by rw [hr2addr]; exact hne⟩, hr2addr⟩
        · rw [if_neg hone] at h
          injection h with h
          subst h
          push_neg at hone
          refine ⟨hn1, removeRun_map_nodup hnd, htd, ?_, ?_, ?_, ?_, ?_⟩
          · intro a2 ha2
            obtain ⟨r2, hr2mem, hr2addr, hr2pos⟩ := htree a2 ha2
            have := hlt r2 hr2mem
            exfalso
            omega
          · intro r2 hr2
            exact hlt r2 (mem_removeRun.mp hr2).1
          · intro r2 hr2 hpos
            have := hlt r2 (mem_removeRun.mp hr2).1
            exfalso
            omega
          · intro a2 ha2
            exact hct a2 ha2
          · intro a2 ha2
            obtain ⟨r2, hr2mem, hr2addr⟩ := List.mem_map.mp (hcur a2 ha2)
            have ha2c : st.runcur = some a2 := by
              cases hcr : st.runcur with
              | none =>
                rw [hcr] at ha2
                exact absurd ha2 (by simp)
              | some x =>
                rw [hcr] at ha2
                have hax : a2 = x := by simpa using ha2
                rw [hax]
            have hne : a2 ≠ a := fun he => hcura (he ▸ ha2c)
            exact List.mem_map.mpr ⟨r2,
              mem_removeRun.mpr ⟨hr2mem, by rw [hr2addr]; exact hne⟩, hr2addr⟩
    · rw [if_neg hempty] at h
      by_cases hcond : r.nfree + 1 = 1 ∧ st.runcur ≠ some a
      · rw [if_pos hcond] at h
        obtain ⟨honefree, hcurne⟩ := hcond
        cases hc : st.runcur with
        | none =>
          rw [hc] at h
          dsimp only at h
          injection h with h
          subst h
          refine ⟨hn1, by rw [setNfree_map_addr]; exact hnd, htd, ?_, ?_, ?_, ?_, ?_⟩
          · intro a2 ha2
            obtain ⟨r2, hr2mem, hr2addr, hr2pos⟩ := htree a2 ha2
            have hne : r2.addr ≠ a := by
              intro heq
              have hr2r : r2 = r := addr_inj hnd hr2mem hrmem (heq.trans hraddr.symm)
              rw [hr2r] at hr2pos
              omega
            exact ⟨r2, setNfree_mem_of_ne hr2mem hne, hr2addr, hr2pos⟩
          · intro r2 hr2
            rcases mem_setNfree hr2 with ⟨hmem, -⟩ | ⟨heq, -⟩
            · exact hlt r2 hmem
            · rw [heq]
              show r.nfree + 1 < st.nregs
              omega
          · intro r2 hr2 hpos
            rcases mem_setNfree hr2 with ⟨hmem, hne⟩ | ⟨heq, -⟩
            · rcases htrack r2 hmem hpos with hcc | ht
              · rw [hc] at hcc
                exact absurd hcc (by simp)
              · right
                exact ht
            · left
              rw [heq]
          · intro a2 ha2
            show some a ≠ some a2
            intro heq2
            have ha2a : a = a2 := Option.some.inj heq2
            obtain ⟨r2, hr2mem, hr2addr, hr2pos⟩ := htree a2 ha2
            have hr2r : r2 = r := addr_inj hnd hr2mem hrmem
              (by rw [hr2addr, ← ha2a, hraddr])
            rw [hr2r] at hr2pos
            omega
          · intro a2 ha2
            have ha2a : a2 = a := by simpa using ha2
            rw [setNfree_map_addr, ha2a, ← hraddr]
            exact List.mem_map.mpr ⟨r, hrmem, rfl⟩
        | some rc =>
          rw [hc] at h
          dsimp only at h
          have harc : a ≠ rc := fun he => hcurne (by rw [hc, he])
          by_cases hlt2 : a < rc
          · rw [if_pos hlt2] at h
            cases hfrc : findRun st.runs rc with
            | none =>
              rw [hfrc] at h
              exact absurd h (by simp)
            | some rcur =>
              rw [hfrc] at h
              dsimp only at h
              injection h with h
              subst h
              obtain ⟨hrcmem, hrcaddr⟩ := findRun_eq hfrc
              by_cases hrcpos : 0 < rcur.nfree
              · rw [if_pos hrcpos]
                refine ⟨hn1, by rw [setNfree_map_addr]; exact hnd, ?_, ?_, ?_, ?_, ?_, ?_⟩
                · refine List.nodup_cons.mpr ⟨?_, htd⟩
                  intro hrcmem2
                  exact hct rc hrcmem2 hc
                · intro a2 ha2
                  rcases List.mem_cons.mp ha2 with rfl | ha2t
                  · exact ⟨rcur, setNfree_mem_of_ne hrcmem
                      (by rw [hrcaddr]; exact Ne.symm harc), hrcaddr, hrcpos⟩
                  · obtain ⟨r2, hr2mem, hr2addr, hr2pos⟩ := htree a2 ha2t
                    have hne : r2.addr ≠ a := by
                      intro heq
                      have hr2r : r2 = r := addr_inj hnd hr2mem hrmem
                        (heq.trans hraddr.symm)
                      rw [hr2r] at hr2pos
                      omega
                    exact ⟨r2, setNfree_mem_of_ne hr2mem hne, hr2addr, hr2pos⟩
                · intro r2 hr2
                  rcases mem_setNfree hr2 with ⟨hmem, -⟩ | ⟨heq, -⟩
                  · exact hlt r2 hmem
                  · rw [heq]
                    show r.nfree + 1 < st.nregs
                    omega
                · intro r2 hr2 hpos
                  rcases mem_setNfree hr2 with ⟨hmem, hne⟩ | ⟨heq, -⟩
                  · rcases htrack r2 hmem hpos with hcc | ht
                    · right
                      rw [hc] at hcc
                      have hr2rc : r2.addr = rc := (Option.some.inj hcc).symm
                      rw [hr2rc]
                      exact List.mem_cons_self _ _
                    · right
                      exact List.mem_cons_of_mem _ ht
                  · left
                    rw [heq]
                · intro a2 ha2
                  show some a ≠ some a2
                  intro heq2
                  have ha2a : a = a2 := Option.some.inj heq2
                  rcases List.mem_cons.mp ha2 with rfl | ha2t
                  · exact harc ha2a
                  · obtain ⟨r2, hr2mem, hr2addr, hr2pos⟩ := htree a2 ha2t
                    have hr2r : r2 = r := addr_inj hnd hr2mem hrmem
                      (by rw [hr2addr, ← ha2a, hraddr])
                    rw [hr2r] at hr2pos
                    omega
                · intro a2 ha2
                  have ha2a : a2 = a := by simpa using ha2
                  rw [setNfree_map_addr, ha2a, ← hraddr]
                  exact List.mem_map.mpr ⟨r, hrmem, rfl⟩
              · rw [if_neg hrcpos]
                refine ⟨hn1, by rw [setNfree_map_addr]; exact hnd, htd, ?_, ?_, ?_, ?_, ?_⟩
                · intro a2 ha2
                  obtain ⟨r2, hr2mem, hr2addr, hr2pos⟩ := htree a2 ha2
                  have hne : r2.addr ≠ a := by
                    intro heq
                    have hr2r : r2 = r := addr_inj hnd hr2mem hrmem
                      (heq.trans hraddr.symm)
                    rw [hr2r] at hr2pos
                    omega
                  exact ⟨r2, setNfree_mem_of_ne hr2mem hne, hr2addr, hr2pos⟩
                · intro r2 hr2
                  rcases mem_setNfree hr2 with ⟨hmem, -⟩ | ⟨heq, -⟩
                  · exact hlt r2 hmem
                  · rw [heq]
                    show r.nfree + 1 < st.nregs
                    omega
                · intro r2 hr2 hpos
                  rcases mem_setNfree hr2 with ⟨hmem, hne⟩ | ⟨heq, -⟩
                  · rcases htrack r2 hmem hpos with hcc | ht
                    · exfalso
                      rw [hc] at hcc
                      have hr2rc : r2.addr = rc := (Option.some.inj hcc).symm
                      have hr2rcur : r2 = rcur := addr_inj hnd hmem hrcmem
                        (hr2rc.trans hrcaddr.symm)
                      rw [hr2rcur] at hpos
                      omega
                    · right
                      exact ht
                  · left
                    rw [heq]
                · intro a2 ha2
                  show some a ≠ some a2
                  intro heq2
                  have ha2a : a = a2 := Option.some.inj heq2
                  obtain ⟨r2, hr2mem, hr2addr, hr2pos⟩ := htree a2 ha2
                  have hr2r : r2 = r := addr_inj hnd hr2mem hrmem
                    (by rw [hr2addr, ← ha2a, hraddr])
                  rw [hr2r] at hr2pos
                  omega
                · intro a2 ha2
                  have ha2a : a2 = a := by simpa using ha2
                  rw [setNfree_map_addr, ha2a, ← hraddr]
                  exact List.mem_map.mpr ⟨r, hrmem, rfl⟩
          · rw [if_neg hlt2] at h
            injection h with h
            subst h
            refine ⟨hn1, by rw [setNfree_map_addr]; exact hnd, ?_, ?_, ?_, ?_, ?_, ?_⟩
            · refine List.nodup_cons.mpr ⟨?_, htd⟩
              intro hat
              obtain ⟨r2, hr2mem, hr2addr, hr2pos⟩ := htree a hat
              have hr2r : r2 = r := addr_inj hnd hr2mem hrmem
                (hr2addr.trans hraddr.symm)
              rw [hr2r] at hr2pos
              omega
            · intro a2 ha2
              rcases List.mem_cons.mp ha2 with rfl | ha2t
              · exact ⟨⟨a2, r.nfree + 1⟩, setNfree_mem_self hrmem hraddr, rfl,
                  Nat.succ_pos _⟩
              · obtain ⟨r2, hr2mem, hr2addr, hr2pos⟩ := htree a2 ha2t
                have hne : r2.addr ≠ a := by
                  intro heq
                  have hr2r : r2 = r := addr_inj hnd hr2mem hrmem
                    (heq.trans hraddr.symm)
                  rw [hr2r] at hr2pos
                  omega
                exact ⟨r2, setNfree_mem_of_ne hr2mem hne, hr2addr, hr2pos⟩
            · intro r2 hr2
              rcases mem_setNfree hr2 with ⟨hmem, -⟩ | ⟨heq, -⟩
              · exact hlt r2 hmem
              · rw [heq]
                show r.nfree + 1 < st.nregs
                omega
            · intro r2 hr2 hpos
              rcases mem_setNfree hr2 with ⟨hmem, hne⟩ | ⟨heq, -⟩
              · rcases htrack r2 hmem hpos with hcc | ht
                · left
                  show some rc = some r2.addr
                  rw [← hc]
                  exact hcc
                · right
                  exact List.mem_cons_of_mem _ ht
              · right
                rw [heq]
                exact List.mem_cons_self _ _
            · intro a2 ha2
              show some rc ≠ some a2
              intro heq2
              have hrca2 : rc = a2 := Option.some.inj heq2
              rcases List.mem_cons.mp ha2 with he | ha2t
              · exact harc (hrca2.trans he).symm
              · exact hct a2 ha2t (by rw [hc]; exact congrArg some hrca2)
            · intro a2 ha2
              have ha2rc : a2 = rc := by simpa using ha2
              rw [setNfree_map_addr, ha2rc]
              exact hcur rc (by rw [hc]; simp)
      · rw [if_neg hcond] at h
        injection h with h
        subst h
        refine ⟨hn1, by rw [setNfree_map_addr]; exact hnd, htd, ?_, ?_, ?_, ?_, ?_⟩
        · intro a2 ha2
          obtain ⟨r2, hr2mem, hr2addr, hr2pos⟩ := htree a2 ha2
          by_cases hne : r2.addr = a
          · refine ⟨⟨a, r.nfree + 1⟩, setNfree_mem_self hrmem hraddr, ?_,
              Nat.succ_pos _⟩
            show a = a2
            rw [← hne, hr2addr]
          · exact ⟨r2, setNfree_mem_of_ne hr2mem hne, hr2addr, hr2pos⟩
        · intro r2 hr2
          rcases mem_setNfree hr2 with ⟨hmem, -⟩ | ⟨heq, -⟩
          · exact hlt r2 hmem
          · rw [heq]
            show r.nfree + 1 < st.nregs
            omega
        · intro r2 hr2 hpos
          rcases mem_setNfree hr2 with ⟨hmem, hne⟩ | ⟨heq, -⟩
          · rcases htrack r2 hmem hpos with hcc | ht
            · left
              exact hcc
            · right
              exact ht
          · rw [heq]
            by_cases hca : st.runcur = some a
            · left
              exact hca
            · have h1 : 0 < r.nfree := by
                rcases Nat.eq_zero_or_pos r.nfree with hz | hp
                · exact absurd ⟨by omega, hca⟩ hcond
                · exact hp
              rcases htrack r hrmem h1 with hcc | ht
              · left
                show st.runcur = some a
                rw [← hraddr]
                exact hcc
              · right
                show a ∈ st.tree
                rw [← hraddr]
                exact ht
        · intro a2 ha2
          exact hct a2 ha2
        · intro a2 ha2
          rw [setNfree_map_addr]
          exact hcur a2 ha2

theorem binStep_wf {st st2 : BinState} {op : BinOp}
    (hwf : BinWF st) (h : binStep st op = some st2) : BinWF st2 := by
  cases op with
  | alloc f => exact mallocBinStep_wf hwf h
  | free a2 => exact dallocBinStep_wf hwf h

/-- C8 as amended: the bin tracking invariant holds initially and is
preserved by every MallocSmall / DallocSmall bin operation: the non-full
runs tree contains only live non-full runs (never a full one), every
non-full run other than runcur is in the tree, and runcur is a live run —
but runcur may be completely full (it stays runcur until the next refill)
and, when non-full, need not be the lowest-addressed non-full run. -/
theorem C8_bin_runs_tracking (n : Nat) (st st2 : BinState) (op : BinOp)
    (hn : 1 ≤ n) (hwf : BinWF st) (hstep : binStep st op = some st2) :
    BinWF (initBin n) ∧ BinWF st2 :=
  ⟨⟨hn, by simp [initBin], by simp [initBin], by simp [initBin],
    by simp [initBin], by simp [initBin], by simp [initBin], by simp [initBin]⟩,
    binStep_wf hwf hstep⟩

/-- Witness for C8: the first allocation of an empty two-region bin
creates run 7 and the invariant holds before and after. -/
theorem C8_witness :
    BinWF (initBin 2) ∧ BinWF ⟨2, [⟨7, 1⟩], some 7, []⟩ :=
  C8_bin_runs_tracking 2 (initBin 2) ⟨2, [⟨7, 1⟩], some 7, []⟩ (.alloc (some 7))
    (by decide) (by decide) (by decide)

end Moz
